import Mathlib

/-!
Verification development for the `kraney/clock` library (a mockable clock
with a virtual-time scheduler and counting-barrier checkpoints).

The Go sources are shallowly embedded below:
* `checkpoint.go`  — `OptionalCheckpoint`, `FailOnUnexpectedCheckpoint`,
  the global checkpoint directory and the package-level `Done`.
* `unsynchronized_mock.go` — `UnsynchronizedMock` with `Add`, `Set`,
  `runNextTimer`, `NewTimer`, `NewTicker`, `AfterFunc`,
  `internalTimer.Tick`, `internalTicker.Tick`, and the option values.

Conventions of the embedding:
* `time.Time` and `time.Duration` are modelled as `Int` nanoseconds
  (the mock is created at `time.Unix(0,0)`, i.e. instant `0`).
* A Go channel of capacity 1 is a single slot `Option Int`
  (`none` = empty slot).  A blocking receive/send that would suspend the
  sequential driver is modelled by returning `none` at the `Option`
  level of the operation.
* The embedding is sequential (one driver thread), matching the
  documented contract that `Add`/`Set` are single-driver operations.
* `AfterFunc` callbacks are modelled as opaque effects (`hasFn = true`)
  that do not re-enter the clock.
-/

namespace KraneyClock

/-! ### Checkpoints (`checkpoint.go`) -/

/-- `OptionalCheckpoint.updateOutstanding`: the single-slot mailbox update.
In the sequential embedding the slot either holds a value (fold the delta
into it and put the sum back) or is empty (deposit the delta), which is
exactly the terminating behaviour of the Go retry loop for one thread. -/
def updateOutstanding (ch : Option Int) (delta : Int) : Option Int :=
  match ch with
  | none => some delta
  | some os => some (os + delta)

/-- `OptionalCheckpoint.Add`. -/
def optAdd (ch : Option Int) (delta : Int) : Option Int :=
  updateOutstanding ch delta

/-- `OptionalCheckpoint.Done` (`updateOutstanding(-1)`). -/
def optDone (ch : Option Int) : Option Int :=
  updateOutstanding ch (-1)

/-- `OptionalCheckpoint.Wait`: take the outstanding value; if it is `≤ 0`
deposit `0` and return, otherwise the sequential driver would block on
the next receive (result `none`). An empty slot also blocks. -/
def optWait (ch : Option Int) : Option (Option Int) :=
  match ch with
  | some os => if os ≤ 0 then some (some 0) else none
  | none => none

/-- State of a `FailOnUnexpectedCheckpoint`: the `expected` counter, the
`sync.WaitGroup` counter `wg`, and the number of failure reports that have
been delivered to the attached `testing.T` reporter. -/
structure FailCP where
  expected : Int
  wg : Int
  failures : Nat
deriving Repr, DecidableEq

/-- `NewFailOnUnexpectedCheckpoint`. -/
def failInit : FailCP := ⟨0, 0, 0⟩

/-- `FailOnUnexpectedCheckpoint.Add`. -/
def failAdd (s : FailCP) (delta : Int) : FailCP :=
  { s with expected := s.expected + delta, wg := s.wg + delta }

/-- `FailOnUnexpectedCheckpoint.Done`: when `expected ≤ 0` this reports
exactly one failure (`t.Errorf`) and returns without touching the
counters; otherwise it decrements `expected` and releases the gate. -/
def failDone (s : FailCP) : FailCP :=
  if s.expected ≤ 0 then { s with failures := s.failures + 1 }
  else { s with expected := s.expected - 1, wg := s.wg - 1 }

/-- Iterated `Done()` calls. -/
def failDoneN : Nat → FailCP → FailCP
  | 0, s => s
  | n + 1, s => failDoneN n (failDone s)

/-- `FailOnUnexpectedCheckpoint.Wait`: `wg.Wait()` returns when the gate
counter is zero (otherwise the sequential driver blocks), then `expected`
is reset to `0`. -/
def failWait (s : FailCP) : Option FailCP :=
  if s.wg = 0 then some { s with expected := 0 } else none

/-- A live `Checkpoint` interface value, as stored in the process-wide
directory: either an `OptionalCheckpoint` or a `FailOnUnexpectedCheckpoint`. -/
inductive CP where
  | optional (ch : Option Int)
  | failOn (s : FailCP)
deriving Repr, DecidableEq

/-- Dynamic dispatch of `Checkpoint.Done`. -/
def cpDone : CP → CP
  | .optional ch => .optional (optDone ch)
  | .failOn s => .failOn (failDone s)

/-- The process-wide `checkpoints` directory (`map[CheckpointName]Checkpoint`),
modelled as an association list keyed by the checkpoint name. -/
abbrev Directory := List (String × CP)

/-- Go map lookup `checkpoints[name]`. -/
def dirLookup : Directory → String → Option CP
  | [], _ => none
  | p :: rest, name => if p.1 = name then some p.2 else dirLookup rest name

/-- The package-level `Done(name)`: look the name up in the directory and
call `Done` on the checkpoint when present; otherwise do nothing. -/
def doneByName (dir : Directory) (name : String) : Directory :=
  match dirLookup dir name with
  | none => dir
  | some _ =>
    List.map (fun p => if p.1 = name then (p.1, cpDone p.2) else p) dir

/-! ### Timers and tickers (`unsynchronized_mock.go`) -/

/-- A registry entry: the scheduling fields shared by `internalTimer` and
`internalTicker` (`recurring = true`).  `eid` stands in for Go pointer
identity; the delivery channel is stored separately (it outlives removal
from the registry, like the Go `Timer.C` handle).  `hasFn = true` marks an
`AfterFunc` timer whose delivery target is a callback. -/
structure Entry where
  eid : Nat
  next : Int
  recurring : Bool
  interval : Int
  hasFn : Bool
deriving Repr, DecidableEq

/-- Whether a fired value was sent on the channel, dropped (ticker with a
full slot), or handed to a callback. -/
inductive Outcome where
  | sent
  | dropped
  | callback
deriving Repr, DecidableEq

/-- One fired event, as observed during `Add`/`Set`: which entry fired, at
which virtual time, and how the value was delivered. -/
structure FireEvent where
  eid : Nat
  time : Int
  outcome : Outcome
deriving Repr, DecidableEq

/-- The channel store: each created timer/ticker owns one capacity-1
channel, keyed by entry identity.  Channels persist after a one-shot timer
is removed from the registry (the user still holds the handle). -/
abbrev Chans := List (Nat × Option Int)

/-- Look up the slot of channel `k` (Go map read; `none` = nil channel). -/
def getChan : Chans → Nat → Option (Option Int)
  | [], _ => none
  | p :: rest, k => if p.1 = k then some p.2 else getChan rest k

/-- Overwrite the slot of channel `k` (Go channel state change). -/
def setChan : Chans → Nat → Option Int → Chans
  | [], _, _ => []
  | p :: rest, k, v => (if p.1 = k then (p.1, v) else p) :: setChan rest k v

/-- Fire one entry at virtual time `now` (the entry's own `next`).
* ticker (`internalTicker.Tick`): `select { case c <- now: default: }` —
  fill the slot if empty, otherwise drop — then `next = now + interval`;
* `AfterFunc` timer: invoke the callback, remove the entry;
* channel timer (`internalTimer.Tick`): the *plain* send `t.c <- now`,
  which fills an empty slot but blocks the driver when the slot is
  already full (result `none`); on success the entry is removed.
Result: `none` = the driver blocked; `some (remaining?, chans, outcome)`. -/
def fireOne (e : Entry) (now : Int) (cs : Chans) :
    Option (Option Entry × Chans × Outcome) :=
  if e.recurring then
    match getChan cs e.eid with
    | some none =>
      some (some { e with next := now + e.interval }, setChan cs e.eid (some now), .sent)
    | _ =>
      some (some { e with next := now + e.interval }, cs, .dropped)
  else if e.hasFn then
    some (none, cs, .callback)
  else
    match getChan cs e.eid with
    | some none => some (none, setChan cs e.eid (some now), .sent)
    | _ => none

/-- Stable insertion of an entry into a list sorted by `next`: the entry is
placed before the first strictly later position, i.e. after all entries
with an equal `next`.  With the comparison
`Less(i,j) = t_i.Next().Before(t_j.Next())` this reproduces the insertion
sort that Go's `sort.Sort` performs on the registry (exact for registries
of at most six entries, where `sort.Sort` is insertion sort verbatim). -/
def orderedInsertT (e : Entry) : List Entry → List Entry
  | [] => [e]
  | f :: l => if e.next ≤ f.next then e :: f :: l else f :: orderedInsertT e l

/-- `sort.Sort(m.timers)`: stable sort of the registry by `next`. -/
def sortTimers : List Entry → List Entry
  | [] => []
  | e :: l => orderedInsertT e (sortTimers l)

/-- The mock clock state (`UnsynchronizedMock`): current virtual time, the
registry of pending entries, the channel store, the two named
`OptionalCheckpoint`s (`syncPoints[OnStart]`, `syncPoints[OnConfirm]`,
each a single-slot mailbox), the `tForFail` reporter flag, and a counter
supplying fresh entry identities. -/
structure UMock where
  now : Int
  timers : List Entry
  chans : Chans
  onStart : Option Int
  onConfirm : Option Int
  tForFail : Bool
  nextId : Nat
deriving Repr, DecidableEq

/-- `NewUnsynchronizedMock()` (without options): current time is the Unix
epoch and both checkpoints hold an outstanding count of `0`. -/
def mockInit : UMock :=
  { now := 0, timers := [], chans := [], onStart := some 0,
    onConfirm := some 0, tForFail := false, nextId := 0 }

/-- Result of one `runNextTimer` call: no entry was due (`done`, with the
registry left sorted, as `sort.Sort` mutates the slice in place), one
entry fired, or the driver blocked inside `Tick`. -/
inductive StepRes where
  | done (s : UMock)
  | fired (s : UMock) (ev : FireEvent)
  | blocked

/-- `UnsynchronizedMock.runNextTimer(max)`: sort the registry by time; if
the earliest entry is due (`¬ next.After(max)`), advance `now` to its
`next` and fire it (`Tick`); a fired one-shot timer is removed
(`removeClockTimer`), a fired ticker stays with its updated `next`. -/
def runNextTimer (s : UMock) (max : Int) : StepRes :=
  match sortTimers s.timers with
  | [] => .done { s with timers := [] }
  | t :: rest =>
    if max < t.next then .done { s with timers := t :: rest }
    else
      match fireOne t t.next s.chans with
      | none => .blocked
      | some (none, cs, out) =>
        .fired { s with now := t.next, timers := rest, chans := cs }
          ⟨t.eid, t.next, out⟩
      | some (some t', cs, out) =>
        .fired { s with now := t.next, timers := t' :: rest, chans := cs }
          ⟨t.eid, t.next, out⟩

/-- The `for { if !m.runNextTimer(t) { break } }` loop of `Add`/`Set`,
with explicit fuel: `none` means the Go loop has not terminated within
`fuel` iterations (or the driver blocked in a `Tick`). -/
def runTimers : Nat → UMock → Int → Option (UMock × List FireEvent)
  | 0, _, _ => none
  | fuel + 1, s, max =>
    match runNextTimer s max with
    | .done s' => some (s', [])
    | .blocked => none
    | .fired s' ev =>
      (runTimers fuel s' max).map (fun p => (p.1, ev :: p.2))

/-! ### Options and their synchronization effects -/

/-- The synchronization effects an option hook can perform on the mock. -/
inductive Eff where
  | waitStart
  | waitConfirm
  | waitAll
  | expectStarts (n : Int)
  | expectConfirms (n : Int)
  | setFail (b : Bool)
  | sched
deriving Repr, DecidableEq

/-- Run one effect on the mock; `none` means the sequential driver blocks
(a checkpoint `Wait` whose outstanding count is positive). `Wait()`
(`waitAll`) waits on both named checkpoints. -/
def applyEff (s : UMock) : Eff → Option UMock
  | .waitStart => (optWait s.onStart).map (fun c => { s with onStart := c })
  | .waitConfirm => (optWait s.onConfirm).map (fun c => { s with onConfirm := c })
  | .waitAll =>
    (optWait s.onStart).bind (fun c1 =>
      (optWait s.onConfirm).map (fun c2 => { s with onStart := c1, onConfirm := c2 }))
  | .expectStarts n => some { s with onStart := optAdd s.onStart n }
  | .expectConfirms n => some { s with onConfirm := optAdd s.onConfirm n }
  | .setFail b => some { s with tForFail := b }
  | .sched => some s

/-- Run a list of effects in order. -/
def applyEffs : UMock → List Eff → Option UMock
  | s, [] => some s
  | s, e :: l => (applyEff s e).bind (fun s' => applyEffs s' l)

/-- An `Option` value: its `PriorEventsOption`, `UpcomingEventsOption` and
`AfterClockAdvanceOption` hooks, each described by the synchronization
effects it performs. -/
structure ClockOpt where
  prior : List Eff
  upcoming : List Eff
  afterAdv : List Eff
deriving Repr, DecidableEq

/-- `WaitForStartsBefore`. -/
def waitForStartsBeforeOpt : ClockOpt := ⟨[.waitStart], [], []⟩

/-- `WaitBefore`. -/
def waitBeforeOpt : ClockOpt := ⟨[.waitAll], [], []⟩

/-- `WaitForStartsAfter`: both in-call hooks are empty; the wait on
`OnStart` lives only in `AfterClockAdvanceOption`. -/
def waitForStartsAfterOpt : ClockOpt := ⟨[], [], [.waitStart]⟩

/-- `WaitAfter`. -/
def waitAfterOpt : ClockOpt := ⟨[], [], [.waitAll]⟩

/-- `WaitForConfirmsBefore` (`confirm.go`). -/
def waitForConfirmsBeforeOpt : ClockOpt := ⟨[.waitConfirm], [], []⟩

/-- `WaitForConfirmsAfter` (`confirm.go`): the wait on `OnConfirm` lives
only in `AfterClockAdvanceOption`. -/
def waitForConfirmsAfterOpt : ClockOpt := ⟨[], [], [.waitConfirm]⟩

/-- `ExpectUpcomingStarts(n)`. -/
def expectUpcomingStartsOpt (n : Int) : ClockOpt := ⟨[], [.expectStarts n], []⟩

/-- `ExpectUpcomingConfirms(n)`. -/
def expectUpcomingConfirmsOpt (n : Int) : ClockOpt := ⟨[], [.expectConfirms n], []⟩

/-- `FailOnUnexpectedUpcomingEvent(t)`. -/
def failOnUnexpectedOpt : ClockOpt := ⟨[], [.setFail true], []⟩

/-- `IgnoreUnexpectedUpcomingEvent`. -/
def ignoreUnexpectedOpt : ClockOpt := ⟨[], [.setFail false], []⟩

/-- `OptimisticSched`. -/
def optimisticSchedOpt : ClockOpt := ⟨[], [.sched], []⟩

/-- Result of an `Add`/`Set` call: the final state, the fired events in
order, and the synchronization effects the call executed before the
advance and after the advance. -/
structure AdvResult where
  state : UMock
  fires : List FireEvent
  effsBefore : List Eff
  effsAfter : List Eff
deriving Repr, DecidableEq

/-- `UnsynchronizedMock.Add(d, opts...)`: run every option's
`PriorEventsOption`, then every option's `UpcomingEventsOption`, compute
`t := now + d`, fire due entries until none remains, and finally assign
`now := t` exactly.  The source never invokes any option's
`AfterClockAdvanceOption`, hence `effsAfter = []`. -/
def UMock.Add (s : UMock) (d : Int) (opts : List ClockOpt) (fuel : Nat) :
    Option AdvResult :=
  (applyEffs s (List.flatten (List.map (fun o => o.prior) opts))).bind (fun s1 =>
    (applyEffs s1 (List.flatten (List.map (fun o => o.upcoming) opts))).bind (fun s2 =>
      (runTimers fuel s2 (s2.now + d)).map (fun p =>
        { state := { p.1 with now := s2.now + d }, fires := p.2,
          effsBefore :=
            List.flatten (List.map (fun o => o.prior) opts) ++
              List.flatten (List.map (fun o => o.upcoming) opts),
          effsAfter := [] })))

/-- `UnsynchronizedMock.Set(t, opts...)`: identical to `Add` but with the
absolute target `t`; it also ends by assigning `now := t` exactly and
never invokes any `AfterClockAdvanceOption`. -/
def UMock.Set (s : UMock) (t : Int) (opts : List ClockOpt) (fuel : Nat) :
    Option AdvResult :=
  (applyEffs s (List.flatten (List.map (fun o => o.prior) opts))).bind (fun s1 =>
    (applyEffs s1 (List.flatten (List.map (fun o => o.upcoming) opts))).bind (fun s2 =>
      (runTimers fuel s2 t).map (fun p =>
        { state := { p.1 with now := t }, fires := p.2,
          effsBefore :=
            List.flatten (List.map (fun o => o.prior) opts) ++
              List.flatten (List.map (fun o => o.upcoming) opts),
          effsAfter := [] })))

/-- `UnsynchronizedMock.NewTimer(d)`: allocate a capacity-1 channel,
register a one-shot entry with `next = now + d`, and signal
`syncPoints[OnStart].Done()`.  Returns the handle (the registered entry)
and the new state. -/
def UMock.NewTimer (s : UMock) (d : Int) : Entry × UMock :=
  let e : Entry := ⟨s.nextId, s.now + d, false, 0, false⟩
  (e, { s with timers := s.timers ++ [e],
               chans := s.chans ++ [(s.nextId, none)],
               onStart := optDone s.onStart,
               nextId := s.nextId + 1 })

/-- `UnsynchronizedMock.NewTicker(d)`: as `NewTimer` but recurring with
`interval = d`. -/
def UMock.NewTicker (s : UMock) (d : Int) : Entry × UMock :=
  let e : Entry := ⟨s.nextId, s.now + d, true, d, false⟩
  (e, { s with timers := s.timers ++ [e],
               chans := s.chans ++ [(s.nextId, none)],
               onStart := optDone s.onStart,
               nextId := s.nextId + 1 })

/-- `UnsynchronizedMock.AfterFunc(d, f)`: `NewTimer(d)` whose delivery
target is replaced by the callback (`t.C = nil; t.fn = f`). -/
def UMock.AfterFunc (s : UMock) (d : Int) : Entry × UMock :=
  let e : Entry := ⟨s.nextId, s.now + d, false, 0, true⟩
  (e, { s with timers := s.timers ++ [e],
               chans := s.chans ++ [(s.nextId, none)],
               onStart := optDone s.onStart,
               nextId := s.nextId + 1 })

/-- `UnsynchronizedMock.ExpectStarts(delta)`: `syncPoints[OnStart].Add(delta)`. -/
def UMock.ExpectStarts (s : UMock) (delta : Int) : UMock :=
  { s with onStart := optAdd s.onStart delta }

/-- Modelled from the spec: `Timer.Reset(d)` lives in a source file of the
repository that is not under `src/` (only callers are).  Per the spec:
"`Reset(d)`: sets `nextFire = Now()+d`, reinserts if not already
registered".  The handle carries the entry's creation data. -/
def UMock.ResetTimer (s : UMock) (h : Entry) (d : Int) : UMock :=
  if (List.map (fun e => e.eid) s.timers).contains h.eid then
    let upd : Entry → Entry := fun e =>
      if e.eid = h.eid then { e with next := s.now + d } else e
    { s with timers := List.map upd s.timers }
  else
    { s with timers := s.timers ++ [{ h with next := s.now + d }] }

/-! ### Operation sequences -/

/-- A public clock operation, for whole-lifetime statements. -/
inductive ClockOp where
  | addOp (d : Int)
  | setOp (t : Int)
  | timerOp (d : Int)
  | tickerOp (d : Int)
  | afterFuncOp (d : Int)
deriving Repr, DecidableEq

/-- Execute one public operation (with no options passed). -/
def stepOp (fuel : Nat) (s : UMock) : ClockOp → Option UMock
  | .addOp d => (UMock.Add s d [] fuel).map (fun r => r.state)
  | .setOp t => (UMock.Set s t [] fuel).map (fun r => r.state)
  | .timerOp d => some (UMock.NewTimer s d).2
  | .tickerOp d => some (UMock.NewTicker s d).2
  | .afterFuncOp d => some (UMock.AfterFunc s d).2

/-- Execute a sequence of public operations. -/
def runOps (fuel : Nat) : UMock → List ClockOp → Option UMock
  | s, [] => some s
  | s, op :: ops => (stepOp fuel s op).bind (fun s' => runOps fuel s' ops)

/-- Fold a list of `Add` calls (durations only, no options), concatenating
the fired-event traces. -/
def foldAdds (fuel : Nat) : UMock → List Int → Option (UMock × List FireEvent)
  | s, [] => some (s, [])
  | s, d :: ds =>
    (UMock.Add s d [] fuel).bind (fun r =>
      (foldAdds fuel r.state ds).map (fun p => (p.1, r.fires ++ p.2)))

/-- Fold a list of `Add` calls with options. -/
def foldAddCalls (fuel : Nat) :
    UMock → List (Int × List ClockOpt) → Option UMock
  | s, [] => some s
  | s, c :: cs =>
    (UMock.Add s c.1 c.2 fuel).bind (fun r => foldAddCalls fuel r.state cs)

/-- The events of entry `k` in a trace, as the list of their fire times. -/
def eventsOf (k : Nat) (tr : List FireEvent) : List Int :=
  List.map (fun ev => ev.time) (List.filter (fun ev => ev.eid = k) tr)

/-- Well-formedness of a mock state: entry identities and channel keys are
below the fresh counter and the entry identities are duplicate-free. -/
def WFids (s : UMock) : Prop :=
  (∀ e ∈ s.timers, e.eid < s.nextId) ∧
    (List.map (fun e => e.eid) s.timers).Nodup ∧
    ∀ p ∈ s.chans, p.1 < s.nextId

/-- Per-operation preconditions under which the clock never moves
backwards: `Add` only with non-negative durations, `Set` only to targets
at or after the current time, and timers/tickers only with non-negative
durations. -/
def goodOp (s : UMock) : ClockOp → Bool
  | .addOp d => 0 ≤ d
  | .setOp t => s.now ≤ t
  | .timerOp d => 0 ≤ d
  | .tickerOp d => 0 ≤ d
  | .afterFuncOp d => 0 ≤ d

/-- All operations of a run satisfy their precondition at the state where
they execute. -/
def goodRun (fuel : Nat) : UMock → List ClockOp → Bool
  | _, [] => true
  | s, op :: ops =>
    goodOp s op &&
      match stepOp fuel s op with
      | none => true
      | some s' => goodRun fuel s' ops

/-- Time-coherence invariant: no pending entry is scheduled in the past,
and every ticker has a non-negative interval. -/
def WFtime (s : UMock) : Prop :=
  (∀ e ∈ s.timers, s.now ≤ e.next) ∧
    (∀ e ∈ s.timers, e.recurring = true → 0 ≤ e.interval)

/-- The entry identities of a registry. -/
def entryIds (l : List Entry) : List Nat :=
  List.map (fun e => e.eid) l

/-- The fire times of a trace, in order. -/
def timesOf (tr : List FireEvent) : List Int :=
  List.map (fun ev => ev.time) tr

/-- A registry sorted by `next` (the postcondition of `sort.Sort`). -/
abbrev SortedNext (l : List Entry) : Prop :=
  List.Pairwise (fun a b => a.next ≤ b.next) l

/-! ## Lemmas about the stable sort -/

theorem orderedInsertT_perm (e : Entry) (l : List Entry) :
    List.Perm (orderedInsertT e l) (e :: l) := by
  induction l with
  | nil => simp [orderedInsertT]
  | cons f t ih =>
    by_cases h : e.next ≤ f.next
    · simp [orderedInsertT, h]
    · simp only [orderedInsertT, h, if_false]
      exact ((ih.cons f).trans (List.Perm.swap e f t))

theorem sortTimers_perm (l : List Entry) : List.Perm (sortTimers l) l := by
  induction l with
  | nil => simp [sortTimers]
  | cons e t ih =>
    exact (orderedInsertT_perm e (sortTimers t)).trans (ih.cons e)

theorem mem_sortTimers {e : Entry} {l : List Entry} :
    e ∈ sortTimers l ↔ e ∈ l :=
  (sortTimers_perm l).mem_iff

theorem orderedInsertT_sorted {l : List Entry} (e : Entry)
    (h : SortedNext l) : SortedNext (orderedInsertT e l) := by
  induction l with
  | nil => simp [orderedInsertT, SortedNext]
  | cons f t ih =>
    have hf := (List.pairwise_cons.mp h).1
    have ht := (List.pairwise_cons.mp h).2
    by_cases hef : e.next ≤ f.next
    · simp only [orderedInsertT, hef, if_true]
      refine List.Pairwise.cons ?_ (List.Pairwise.cons hf ht)
      intro b hb
      rcases List.mem_cons.mp hb with hb1 | hb1
      · exact hb1 ▸ hef
      · exact le_trans hef (hf b hb1)
    · simp only [orderedInsertT, hef, if_false]
      refine List.Pairwise.cons ?_ (ih ht)
      intro b hb
      rcases List.mem_cons.mp ((orderedInsertT_perm e t).mem_iff.mp hb) with hb1 | hb1
      · exact hb1 ▸ le_of_not_le hef
      · exact hf b hb1

theorem sortTimers_sorted (l : List Entry) : SortedNext (sortTimers l) := by
  induction l with
  | nil => simp [sortTimers, SortedNext]
  | cons e t ih => exact orderedInsertT_sorted e ih

theorem sorted_head_min {t : Entry} {rest : List Entry}
    (h : SortedNext (t :: rest)) : ∀ e ∈ rest, t.next ≤ e.next :=
  fun _ he => List.rel_of_pairwise_cons h he

theorem sortTimers_head_min {l : List Entry} {t : Entry} {rest : List Entry}
    (h : sortTimers l = t :: rest) : ∀ e ∈ l, t.next ≤ e.next := by
  intro e he
  have hmem : e ∈ t :: rest := h ▸ mem_sortTimers.mpr he
  rcases List.mem_cons.mp hmem with hm1 | hm1
  · exact le_of_eq (by rw [hm1])
  · exact sorted_head_min (h ▸ sortTimers_sorted l) e hm1

/-! ## Lemmas about the channel store -/

theorem getChan_setChan (cs : Chans) (k k' : Nat) (v : Option Int) :
    getChan (setChan cs k v) k' =
      if k' = k then (getChan cs k).map (fun _ => v) else getChan cs k' := by
  induction cs with
  | nil => by_cases h : k' = k <;> simp [getChan, setChan, h]
  | cons p rest ih =>
    by_cases hp : p.1 = k
    · by_cases hk : k' = k
      · subst hk
        simp [getChan, setChan, hp]
      · have hpk : ¬ p.1 = k' := fun hc => hk (hc ▸ hp)
        simp only [setChan, if_pos hp, getChan, hpk, if_false, if_neg hk]
        rw [ih, if_neg hk]
    · by_cases hk : k' = k
      · subst hk
        have hpk : ¬ p.1 = k' := hp
        simp only [setChan, if_neg hp, getChan, hpk, if_false]
        rw [ih]
        simp
      · by_cases hpk : p.1 = k'
        · simp only [setChan, if_neg hp, getChan, hpk, if_true, if_neg hk]
        · simp only [setChan, if_neg hp, getChan, hpk, if_false, if_neg hk]
          rw [ih, if_neg hk]

theorem getChan_setChan_ne {cs : Chans} {k k' : Nat} {v : Option Int}
    (h : k' ≠ k) : getChan (setChan cs k v) k' = getChan cs k' := by
  rw [getChan_setChan, if_neg h]

theorem getChan_setChan_self {cs : Chans} {k : Nat} {v w : Option Int}
    (h : getChan cs k = some w) :
    getChan (setChan cs k v) k = some v := by
  rw [getChan_setChan, if_pos rfl, h]
  rfl

/-! ## Lemmas about firing a single entry -/

theorem fireOne_recurring {e : Entry} (now : Int) (cs : Chans)
    (h : e.recurring = true) :
    ∃ cs' out, fireOne e now cs = some (some { e with next := now + e.interval }, cs', out) ∧
      ∀ k, k ≠ e.eid → getChan cs' k = getChan cs k := by
  rcases hg : getChan cs e.eid with _ | w
  · exact ⟨cs, .dropped, by simp [fireOne, h, hg], fun k _ => rfl⟩
  · rcases w with _ | v
    · refine ⟨setChan cs e.eid (some now), .sent, by simp [fireOne, h, hg], ?_⟩
      intro k hk
      exact getChan_setChan_ne hk
    · exact ⟨cs, .dropped, by simp [fireOne, h, hg], fun k _ => rfl⟩

theorem fireOne_oneshot {e : Entry} {now : Int} {cs : Chans}
    {r : Option Entry} {cs' : Chans} {out : Outcome}
    (h : e.recurring = false)
    (hf : fireOne e now cs = some (r, cs', out)) :
    r = none ∧ (∀ k, k ≠ e.eid → getChan cs' k = getChan cs k) ∧
      (e.hasFn = false → getChan cs' e.eid = some (some now)) := by
  rcases hfn : e.hasFn with _ | _
  · rcases hg : getChan cs e.eid with _ | w
    · simp [fireOne, h, hfn, hg] at hf
    · rcases w with _ | v
      · have hval : fireOne e now cs =
            some (none, setChan cs e.eid (some now), Outcome.sent) := by
          simp [fireOne, h, hfn, hg]
        rw [hval] at hf
        simp only [Option.some.injEq, Prod.mk.injEq] at hf
        obtain ⟨h1, h2, _⟩ := hf
        refine ⟨h1.symm, ?_, ?_⟩
        · intro k hk
          rw [← h2]
          exact getChan_setChan_ne hk
        · intro _
          rw [← h2]
          exact getChan_setChan_self hg
      · simp [fireOne, h, hfn, hg] at hf
  · have hval : fireOne e now cs = some (none, cs, Outcome.callback) := by
      simp [fireOne, h, hfn]
    rw [hval] at hf
    simp only [Option.some.injEq, Prod.mk.injEq] at hf
    obtain ⟨h1, h2, _⟩ := hf
    refine ⟨h1.symm, fun k _ => by rw [← h2], fun hc => ?_⟩
    simp at hc

/-! ## Inversion lemmas for one scheduler step -/

theorem runNextTimer_done {s : UMock} {max : Int} {s1 : UMock}
    (h : runNextTimer s max = .done s1) :
    s1.timers = sortTimers s.timers ∧ s1.now = s.now ∧ s1.chans = s.chans ∧
      s1.nextId = s.nextId ∧ s1.onStart = s.onStart ∧
      s1.onConfirm = s.onConfirm ∧ s1.tForFail = s.tForFail ∧
      ∀ e ∈ s.timers, max < e.next := by
  rcases hs : sortTimers s.timers with _ | ⟨t, rest⟩
  · simp only [runNextTimer, hs] at h
    injection h with h1
    subst h1
    refine ⟨rfl, rfl, rfl, rfl, rfl, rfl, rfl, ?_⟩
    intro e he
    exact absurd (hs ▸ mem_sortTimers.mpr he) (List.not_mem_nil e)
  · by_cases hlt : max < t.next
    · simp only [runNextTimer, hs, if_pos hlt] at h
      injection h with h1
      subst h1
      refine ⟨rfl, rfl, rfl, rfl, rfl, rfl, rfl, ?_⟩
      intro e he
      exact lt_of_lt_of_le hlt (sortTimers_head_min hs e he)
    · rcases hf : fireOne t t.next s.chans with _ | ⟨r, cs, out⟩
      · simp [runNextTimer, hs, if_neg hlt, hf] at h
      · rcases r with _ | t' <;> simp [runNextTimer, hs, if_neg hlt, hf] at h

theorem runNextTimer_fired {s : UMock} {max : Int} {s1 : UMock} {ev : FireEvent}
    (h : runNextTimer s max = .fired s1 ev) :
    ∃ t rest, sortTimers s.timers = t :: rest ∧ t.next ≤ max ∧
      ev.eid = t.eid ∧ ev.time = t.next ∧ t ∈ s.timers ∧
      s1.now = t.next ∧ s1.nextId = s.nextId ∧ s1.onStart = s.onStart ∧
      s1.onConfirm = s.onConfirm ∧ s1.tForFail = s.tForFail ∧
      (∀ k, k ≠ t.eid → getChan s1.chans k = getChan s.chans k) ∧
      ((t.recurring = true ∧
          s1.timers = { t with next := t.next + t.interval } :: rest) ∨
        (t.recurring = false ∧ s1.timers = rest ∧
          (t.hasFn = false → getChan s1.chans t.eid = some (some t.next)))) := by
  rcases hs : sortTimers s.timers with _ | ⟨t, rest⟩
  · simp [runNextTimer, hs] at h
  · by_cases hlt : max < t.next
    · simp [runNextTimer, hs, if_pos hlt] at h
    · have htmem : t ∈ s.timers := mem_sortTimers.mp (hs ▸ List.mem_cons_self t rest)
      by_cases hrec : t.recurring = true
      · obtain ⟨cs2, out2, hval, hframe⟩ := fireOne_recurring t.next s.chans hrec
        simp only [runNextTimer, hs, if_neg hlt, hval] at h
        injection h with h1 h2
        subst h1
        subst h2
        exact ⟨t, rest, rfl, le_of_not_lt hlt, rfl, rfl, htmem,
          rfl, rfl, rfl, rfl, rfl, fun k hk => hframe k hk, Or.inl ⟨hrec, rfl⟩⟩
      · have hrec' : t.recurring = false := by
          cases hb : t.recurring
          · rfl
          · exact absurd hb hrec
        rcases hf : fireOne t t.next s.chans with _ | ⟨r, cs, out⟩
        · simp [runNextTimer, hs, if_neg hlt, hf] at h
        · obtain ⟨hnone, hframe, hcontent⟩ := fireOne_oneshot hrec' hf
          subst hnone
          simp only [runNextTimer, hs, if_neg hlt, hf] at h
          injection h with h1 h2
          subst h1
          subst h2
          exact ⟨t, rest, rfl, le_of_not_lt hlt, rfl, rfl, htmem,
            rfl, rfl, rfl, rfl, rfl, fun k hk => hframe k hk,
            Or.inr ⟨hrec', rfl, fun hfn => hcontent hfn⟩⟩

/-! ## The scheduler loop: structural facts -/

theorem entryIds_sortTimers_perm (l : List Entry) :
    List.Perm (entryIds (sortTimers l)) (entryIds l) :=
  (sortTimers_perm l).map _

theorem mem_entryIds_sortTimers {k : Nat} {l : List Entry} :
    k ∈ entryIds (sortTimers l) ↔ k ∈ entryIds l :=
  (entryIds_sortTimers_perm l).mem_iff

theorem nodup_entryIds_sortTimers {l : List Entry}
    (h : (entryIds l).Nodup) : (entryIds (sortTimers l)).Nodup :=
  ((entryIds_sortTimers_perm l).nodup_iff).mpr h

theorem eid_mem_entryIds {e : Entry} {l : List Entry} (h : e ∈ l) :
    e.eid ∈ entryIds l :=
  List.mem_map_of_mem (fun e => e.eid) h

theorem nodup_eq_of_eid_eq {l : List Entry} (hnd : (entryIds l).Nodup)
    {e f : Entry} (he : e ∈ l) (hf : f ∈ l) (heq : e.eid = f.eid) : e = f :=
  List.inj_on_of_nodup_map hnd he hf heq

theorem runTimers_facts :
    ∀ (fuel : Nat) (s : UMock) (max : Int) (s' : UMock) (tr : List FireEvent),
    runTimers fuel s max = some (s', tr) →
    (∀ e ∈ s'.timers, max < e.next) ∧
      (∀ ev ∈ tr, ev.time ≤ max) ∧
      (∀ ev ∈ tr, ev.eid ∈ entryIds s.timers) ∧
      (∀ k ∈ entryIds s'.timers, k ∈ entryIds s.timers) ∧
      ((entryIds s.timers).Nodup → (entryIds s'.timers).Nodup) ∧
      s'.nextId = s.nextId ∧ s'.onStart = s.onStart ∧
      s'.onConfirm = s.onConfirm ∧ s'.tForFail = s.tForFail := by
  intro fuel
  induction fuel with
  | zero => intro s max s' tr h; simp [runTimers] at h
  | succ fuel ih =>
    intro s max s' tr h
    rcases hr : runNextTimer s max with s1 | ⟨s1, ev⟩ | _
    · simp only [runTimers, hr] at h
      simp only [Option.some.injEq, Prod.mk.injEq] at h
      obtain ⟨h1, h2⟩ := h
      subst h1
      subst h2
      obtain ⟨htm, hnow, hch, hid, hos, hoc, htf, hall⟩ := runNextTimer_done hr
      refine ⟨?_, by simp, by simp, ?_, ?_, hid, hos, hoc, htf⟩
      · intro e he
        rw [htm] at he
        exact hall e (mem_sortTimers.mp he)
      · intro k hk
        rw [htm] at hk
        exact mem_entryIds_sortTimers.mp hk
      · intro hnd
        rw [htm]
        exact nodup_entryIds_sortTimers hnd
    · simp only [runTimers, hr] at h
      rcases hrec2 : runTimers fuel s1 max with _ | ⟨s2, tr2⟩
      · rw [hrec2] at h; simp at h
      · rw [hrec2] at h
        simp only [Option.map_some', Option.some.injEq, Prod.mk.injEq] at h
        obtain ⟨h1, h2⟩ := h
        subst h1
        subst h2
        obtain ⟨ha, hb, hc, hd, he, hid, hos, hoc, htf⟩ :=
          ih s1 max s2 tr2 hrec2
        obtain ⟨t, rest, hs, hle, heid, htime, htmem, hnow, hid1, hos1,
          hoc1, htf1, hframe, hbranch⟩ := runNextTimer_fired hr
        have hsub1 : ∀ k ∈ entryIds s1.timers, k ∈ entryIds s.timers := by
          intro k hk
          rcases hbranch with ⟨_, htm⟩ | ⟨_, htm, _⟩
          · rw [htm] at hk
            have : k ∈ entryIds (t :: rest) := by
              simpa [entryIds] using hk
            rw [← hs] at this
            exact mem_entryIds_sortTimers.mp this
          · rw [htm] at hk
            have : k ∈ entryIds (t :: rest) := by
              simp only [entryIds, List.map_cons, List.mem_cons]
              exact Or.inr (by simpa [entryIds] using hk)
            rw [← hs] at this
            exact mem_entryIds_sortTimers.mp this
        have hnodup1 : (entryIds s.timers).Nodup → (entryIds s1.timers).Nodup := by
          intro hnd
          have hnds : (entryIds (sortTimers s.timers)).Nodup :=
            nodup_entryIds_sortTimers hnd
          rw [hs] at hnds
          rcases hbranch with ⟨_, htm⟩ | ⟨_, htm, _⟩
          · rw [htm]
            simpa [entryIds] using hnds
          · rw [htm]
            simp only [entryIds, List.map_cons, List.nodup_cons] at hnds
            exact hnds.2
        refine ⟨ha, ?_, ?_, fun k hk => hsub1 k (hd k hk),
          fun hnd => he (hnodup1 hnd), hid.trans hid1, hos.trans hos1,
          hoc.trans hoc1, htf.trans htf1⟩
        · intro ev2 hev
          rcases List.mem_cons.mp hev with h1 | h1
          · rw [h1, htime]
            exact hle
          · exact hb ev2 h1
        · intro ev2 hev
          rcases List.mem_cons.mp hev with h1 | h1
          · rw [h1, heid]
            exact eid_mem_entryIds htmem
          · exact hsub1 ev2.eid (hc ev2 h1)
    · simp only [runTimers, hr] at h
      exact Option.noConfusion h

theorem eventsOf_cons (k : Nat) (ev : FireEvent) (tr : List FireEvent) :
    eventsOf k (ev :: tr) =
      if ev.eid = k then ev.time :: eventsOf k tr else eventsOf k tr := by
  by_cases h : ev.eid = k <;> simp [eventsOf, List.filter_cons, h]

theorem eventsOf_eq_nil {k : Nat} {tr : List FireEvent}
    (h : ∀ ev ∈ tr, ev.eid ≠ k) : eventsOf k tr = [] := by
  induction tr with
  | nil => rfl
  | cons ev tr ih =>
    rw [eventsOf_cons, if_neg (h ev (List.mem_cons_self ev tr))]
    exact ih (fun ev2 hm => h ev2 (List.mem_cons_of_mem ev hm))

theorem fired_ids_sub {s : UMock} {max : Int} {s1 : UMock} {ev : FireEvent}
    (h : runNextTimer s max = .fired s1 ev) :
    ∀ k ∈ entryIds s1.timers, k ∈ entryIds s.timers := by
  obtain ⟨t, rest, hs, _, _, _, _, _, _, _, _, _, _, hbranch⟩ :=
    runNextTimer_fired h
  intro k hk
  rcases hbranch with ⟨_, htm⟩ | ⟨_, htm, _⟩
  · rw [htm] at hk
    have : k ∈ entryIds (t :: rest) := by simpa [entryIds] using hk
    rw [← hs] at this
    exact mem_entryIds_sortTimers.mp this
  · rw [htm] at hk
    have : k ∈ entryIds (t :: rest) := by
      simp only [entryIds, List.map_cons, List.mem_cons]
      exact Or.inr (by simpa [entryIds] using hk)
    rw [← hs] at this
    exact mem_entryIds_sortTimers.mp this

theorem fired_nodup {s : UMock} {max : Int} {s1 : UMock} {ev : FireEvent}
    (h : runNextTimer s max = .fired s1 ev)
    (hnd : (entryIds s.timers).Nodup) : (entryIds s1.timers).Nodup := by
  obtain ⟨t, rest, hs, _, _, _, _, _, _, _, _, _, _, hbranch⟩ :=
    runNextTimer_fired h
  have hnds : (entryIds (sortTimers s.timers)).Nodup :=
    nodup_entryIds_sortTimers hnd
  rw [hs] at hnds
  rcases hbranch with ⟨_, htm⟩ | ⟨_, htm, _⟩
  · rw [htm]
    simpa [entryIds] using hnds
  · rw [htm]
    simp only [entryIds, List.map_cons, List.nodup_cons] at hnds
    exact hnds.2

/-- A due ticker with a non-positive interval makes the fire loop of
`Add`/`Set` run forever (it re-arms itself at or before its own fire
time): no amount of fuel completes the loop. -/
theorem runTimers_bad_ticker :
    ∀ (fuel : Nat) (s : UMock) (max : Int),
    (∃ e ∈ s.timers, e.recurring = true ∧ e.interval ≤ 0 ∧ e.next ≤ max) →
    runTimers fuel s max = none := by
  intro fuel
  induction fuel with
  | zero => intro s max _; rfl
  | succ fuel ih =>
    intro s max hbad
    obtain ⟨e, hmem, hrec, hint, hnext⟩ := hbad
    rcases hr : runNextTimer s max with s1 | ⟨s1, ev⟩ | _
    · obtain ⟨_, _, _, _, _, _, _, hall⟩ := runNextTimer_done hr
      exact absurd (hall e hmem) (not_lt.mpr hnext)
    · obtain ⟨t, rest, hs, hle, _, _, htmem, _, _, _, _, _, _, hbranch⟩ :=
        runNextTimer_fired hr
      have hbad1 : ∃ e1 ∈ s1.timers,
          e1.recurring = true ∧ e1.interval ≤ 0 ∧ e1.next ≤ max := by
        by_cases het : e = t
        · subst het
          rcases hbranch with ⟨_, htm⟩ | ⟨hrec2, _, _⟩
          · refine ⟨{ e with next := e.next + e.interval }, ?_, hrec, hint, ?_⟩
            · rw [htm]
              exact List.mem_cons_self _ _
            · have : e.next + e.interval ≤ e.next := by linarith
              exact le_trans this hle
          · rw [hrec] at hrec2
            cases hrec2
        · have hem : e ∈ t :: rest := hs ▸ mem_sortTimers.mpr hmem
          have herest : e ∈ rest := by
            rcases List.mem_cons.mp hem with h1 | h1
            · exact absurd h1 het
            · exact h1
          rcases hbranch with ⟨_, htm⟩ | ⟨_, htm, _⟩
          · exact ⟨e, by rw [htm]; exact List.mem_cons_of_mem _ herest,
              hrec, hint, hnext⟩
          · exact ⟨e, by rw [htm]; exact herest, hrec, hint, hnext⟩
      simp only [runTimers, hr, ih s1 max hbad1, Option.map_none']
    · simp only [runTimers, hr]

/-- During one fire loop, events happen in non-decreasing time order; and
any lower bound on the pending `next` times bounds every fire time. -/
theorem runTimers_times_sorted :
    ∀ (fuel : Nat) (s : UMock) (max : Int) (s' : UMock) (tr : List FireEvent),
    runTimers fuel s max = some (s', tr) →
    List.Pairwise (fun a b => a ≤ b) (timesOf tr) ∧
      ∀ lo, (∀ e ∈ s.timers, lo ≤ e.next) → ∀ τ ∈ timesOf tr, lo ≤ τ := by
  intro fuel
  induction fuel with
  | zero => intro s max s' tr h; simp [runTimers] at h
  | succ fuel ih =>
    intro s max s' tr h
    rcases hr : runNextTimer s max with s1 | ⟨s1, ev⟩ | _
    · simp only [runTimers, hr, Option.some.injEq, Prod.mk.injEq] at h
      obtain ⟨h1, h2⟩ := h
      subst h1
      subst h2
      exact ⟨List.Pairwise.nil, by simp [timesOf]⟩
    · simp only [runTimers, hr] at h
      rcases hrec2 : runTimers fuel s1 max with _ | ⟨s2, tr2⟩
      · rw [hrec2] at h; simp at h
      · rw [hrec2] at h
        simp only [Option.map_some', Option.some.injEq, Prod.mk.injEq] at h
        obtain ⟨h1, h2⟩ := h
        subst h1
        subst h2
        obtain ⟨hpw2, hbound2⟩ := ih s1 max s2 tr2 hrec2
        obtain ⟨t, rest, hs, hle, _, htime, htmem, _, _, _, _, _, _, hbranch⟩ :=
          runNextTimer_fired hr
        have hsorted := sortTimers_sorted s.timers
        rw [hs] at hsorted
        have hge : ∀ e1 ∈ s1.timers, t.next ≤ e1.next := by
          intro e1 he1
          rcases hbranch with ⟨hrec1, htm⟩ | ⟨_, htm, _⟩
          · rw [htm] at he1
            rcases List.mem_cons.mp he1 with h3 | h3
            · have hpos : 0 ≤ t.interval := by
                by_contra hneg
                push_neg at hneg
                have hbad : runTimers (fuel + 1) s max = none :=
                  runTimers_bad_ticker (fuel + 1) s max
                    ⟨t, htmem, hrec1, le_of_lt hneg, hle⟩
                have hsome : runTimers (fuel + 1) s max = some (s2, ev :: tr2) := by
                  simp only [runTimers, hr, hrec2, Option.map_some']
                rw [hbad] at hsome
                exact Option.noConfusion hsome
              rw [h3]
              simp only
              linarith
            · exact sorted_head_min hsorted e1 h3
          · rw [htm] at he1
            exact sorted_head_min hsorted e1 he1
        have hbnd : ∀ τ ∈ timesOf tr2, t.next ≤ τ := hbound2 t.next hge
        constructor
        · simp only [timesOf, List.map_cons]
          refine List.Pairwise.cons ?_ hpw2
          intro τ hτ
          rw [htime]
          exact hbnd τ hτ
        · intro lo hlo τ hτ
          simp only [timesOf, List.map_cons, List.mem_cons] at hτ
          rcases hτ with h3 | h3
          · rw [h3, htime]
            exact hlo t htmem
          · exact le_trans (hlo t htmem) (htime ▸ hbnd τ h3)
    · simp only [runTimers, hr] at h
      exact Option.noConfusion h

/-- The fire loop never moves `now` backwards when no pending entry is
scheduled in the past and all tickers have non-negative intervals; both
conditions are preserved. -/
theorem runTimers_time_inv :
    ∀ (fuel : Nat) (s : UMock) (max : Int) (s' : UMock) (tr : List FireEvent),
    (∀ e ∈ s.timers, s.now ≤ e.next) →
    (∀ e ∈ s.timers, e.recurring = true → 0 ≤ e.interval) →
    runTimers fuel s max = some (s', tr) →
    s.now ≤ s'.now ∧ (∀ e ∈ s'.timers, s'.now ≤ e.next) ∧
      (∀ e ∈ s'.timers, e.recurring = true → 0 ≤ e.interval) := by
  intro fuel
  induction fuel with
  | zero => intro s max s' tr _ _ h; simp [runTimers] at h
  | succ fuel ih =>
    intro s max s' tr hlb hiv h
    rcases hr : runNextTimer s max with s1 | ⟨s1, ev⟩ | _
    · simp only [runTimers, hr, Option.some.injEq, Prod.mk.injEq] at h
      obtain ⟨h1, h2⟩ := h
      subst h1
      subst h2
      obtain ⟨htm, hnow, _, _, _, _, _, _⟩ := runNextTimer_done hr
      refine ⟨le_of_eq hnow.symm, ?_, ?_⟩
      · intro e he
        rw [hnow]
        exact hlb e (mem_sortTimers.mp (htm ▸ he))
      · intro e he hrec
        exact hiv e (mem_sortTimers.mp (htm ▸ he)) hrec
    · simp only [runTimers, hr] at h
      rcases hrec2 : runTimers fuel s1 max with _ | ⟨s2, tr2⟩
      · rw [hrec2] at h; simp at h
      · rw [hrec2] at h
        simp only [Option.map_some', Option.some.injEq, Prod.mk.injEq] at h
        obtain ⟨h1, h2⟩ := h
        subst h1
        subst h2
        obtain ⟨t, rest, hs, _, _, _, htmem, hnow, _, _, _, _, _, hbranch⟩ :=
          runNextTimer_fired hr
        have hsorted := sortTimers_sorted s.timers
        rw [hs] at hsorted
        have hmem_rest : ∀ e1 ∈ rest, e1 ∈ s.timers := by
          intro e1 he1
          exact mem_sortTimers.mp (hs ▸ List.mem_cons_of_mem t he1)
        have hlb1 : ∀ e1 ∈ s1.timers, s1.now ≤ e1.next := by
          intro e1 he1
          rw [hnow]
          rcases hbranch with ⟨hrec1, htm⟩ | ⟨_, htm, _⟩
          · rw [htm] at he1
            rcases List.mem_cons.mp he1 with h3 | h3
            · rw [h3]
              simp only
              have := hiv t htmem hrec1
              linarith
            · exact sorted_head_min hsorted e1 h3
          · rw [htm] at he1
            exact sorted_head_min hsorted e1 he1
        have hiv1 : ∀ e1 ∈ s1.timers, e1.recurring = true → 0 ≤ e1.interval := by
          intro e1 he1 hr1
          rcases hbranch with ⟨hrec1, htm⟩ | ⟨_, htm, _⟩
          · rw [htm] at he1
            rcases List.mem_cons.mp he1 with h3 | h3
            · rw [h3]
              simp only
              exact hiv t htmem hrec1
            · exact hiv e1 (hmem_rest e1 h3) hr1
          · rw [htm] at he1
            exact hiv e1 (hmem_rest e1 he1) hr1
        obtain ⟨hmono, hlb2, hiv2⟩ := ih s1 max s2 tr2 hlb1 hiv1 hrec2
        refine ⟨?_, hlb2, hiv2⟩
        have hstep : s.now ≤ s1.now := by
          rw [hnow]
          exact hlb t htmem
        exact le_trans hstep hmono
    · simp only [runTimers, hr] at h
      exact Option.noConfusion h

/-- The fire loop does not touch the channel of any entity outside the
registry. -/
theorem runTimers_chan_frame :
    ∀ (fuel : Nat) (s : UMock) (max : Int) (s' : UMock) (tr : List FireEvent)
      (k : Nat),
    runTimers fuel s max = some (s', tr) → k ∉ entryIds s.timers →
    getChan s'.chans k = getChan s.chans k := by
  intro fuel
  induction fuel with
  | zero => intro s max s' tr k h; simp [runTimers] at h
  | succ fuel ih =>
    intro s max s' tr k h hk
    rcases hr : runNextTimer s max with s1 | ⟨s1, ev⟩ | _
    · simp only [runTimers, hr, Option.some.injEq, Prod.mk.injEq] at h
      obtain ⟨h1, h2⟩ := h
      subst h1
      subst h2
      obtain ⟨_, _, hch, _, _, _, _, _⟩ := runNextTimer_done hr
      rw [hch]
    · simp only [runTimers, hr] at h
      rcases hrec2 : runTimers fuel s1 max with _ | ⟨s2, tr2⟩
      · rw [hrec2] at h; simp at h
      · rw [hrec2] at h
        simp only [Option.map_some', Option.some.injEq, Prod.mk.injEq] at h
        obtain ⟨h1, h2⟩ := h
        subst h1
        subst h2
        obtain ⟨t, rest, _, _, _, _, htmem, _, _, _, _, _, hframe, _⟩ :=
          runNextTimer_fired hr
        have hk1 : k ∉ entryIds s1.timers := fun hc => hk (fired_ids_sub hr k hc)
        have hkt : k ≠ t.eid := fun hc => hk (hc ▸ eid_mem_entryIds htmem)
        rw [ih s1 max s2 tr2 k hrec2 hk1, hframe k hkt]
    · simp only [runTimers, hr] at h
      exact Option.noConfusion h

/-- Tracking one registered one-shot timer through the fire loop: if it is
due it fires exactly once, at exactly its scheduled time, is removed, and
(for a channel timer) its channel ends up holding exactly that time; if it
is not due it survives untouched with no events and an untouched channel. -/
theorem runTimers_oneshot :
    ∀ (fuel : Nat) (s : UMock) (max : Int) (s' : UMock) (tr : List FireEvent)
      (e : Entry),
    (entryIds s.timers).Nodup → e ∈ s.timers → e.recurring = false →
    runTimers fuel s max = some (s', tr) →
    (e.next ≤ max →
        eventsOf e.eid tr = [e.next] ∧ e.eid ∉ entryIds s'.timers ∧
        (e.hasFn = false → getChan s'.chans e.eid = some (some e.next))) ∧
      (max < e.next →
        e ∈ s'.timers ∧ eventsOf e.eid tr = [] ∧
        getChan s'.chans e.eid = getChan s.chans e.eid) := by
  intro fuel
  induction fuel with
  | zero => intro s max s' tr e _ _ _ h; simp [runTimers] at h
  | succ fuel ih =>
    intro s max s' tr e hnd hmem hrecF h
    rcases hr : runNextTimer s max with s1 | ⟨s1, ev⟩ | _
    · simp only [runTimers, hr, Option.some.injEq, Prod.mk.injEq] at h
      obtain ⟨h1, h2⟩ := h
      subst h1
      subst h2
      obtain ⟨htm, _, hch, _, _, _, _, hall⟩ := runNextTimer_done hr
      constructor
      · intro hle
        exact absurd (hall e hmem) (not_lt.mpr hle)
      · intro _
        refine ⟨?_, rfl, by rw [hch]⟩
        rw [htm]
        exact mem_sortTimers.mpr hmem
    · simp only [runTimers, hr] at h
      rcases hrec2 : runTimers fuel s1 max with _ | ⟨s2, tr2⟩
      · rw [hrec2] at h; simp at h
      · rw [hrec2] at h
        simp only [Option.map_some', Option.some.injEq, Prod.mk.injEq] at h
        obtain ⟨h1, h2⟩ := h
        subst h1
        subst h2
        obtain ⟨t, rest, hs, hle_t, heid_ev, htime_ev, htmem, _, _, _, _, _,
          hframe, hbranch⟩ := runNextTimer_fired hr
        obtain ⟨hfa, _, hfc, hfd, _, _, _, _, _⟩ :=
          runTimers_facts fuel s1 max s2 tr2 hrec2
        by_cases heq : t.eid = e.eid
        · have hte : e = t := nodup_eq_of_eid_eq hnd hmem htmem heq.symm
          subst hte
          rcases hbranch with ⟨hrec1, _⟩ | ⟨_, htm, hcontent⟩
          · rw [hrecF] at hrec1
            cases hrec1
          · have hnds : (entryIds (sortTimers s.timers)).Nodup :=
              nodup_entryIds_sortTimers hnd
            rw [hs] at hnds
            simp only [entryIds, List.map_cons, List.nodup_cons] at hnds
            have hnotrest : e.eid ∉ entryIds rest := by
              simpa [entryIds] using hnds.1
            constructor
            · intro _
              refine ⟨?_, ?_, ?_⟩
              · rw [eventsOf_cons, if_pos heid_ev, htime_ev]
                have : eventsOf e.eid tr2 = [] := by
                  refine eventsOf_eq_nil ?_
                  intro ev2 hev2 hc
                  have := hfc ev2 hev2
                  rw [hc, htm] at this
                  exact hnotrest this
                rw [this]
              · intro hc
                have := hfd e.eid hc
                rw [htm] at this
                exact hnotrest this
              · intro hfn
                have hk1 : e.eid ∉ entryIds s1.timers := by
                  rw [htm]
                  exact hnotrest
                rw [runTimers_chan_frame fuel s1 max s2 tr2 e.eid hrec2 hk1]
                exact hcontent hfn
            · intro hlt
              exact absurd hle_t (not_le.mpr hlt)
        · have hnet : e.eid ≠ t.eid := fun hc => heq hc.symm
          have hem : e ∈ t :: rest := hs ▸ mem_sortTimers.mpr hmem
          have herest : e ∈ rest := by
            rcases List.mem_cons.mp hem with h3 | h3
            · exact absurd (congrArg (fun x => x.eid) h3) hnet
            · exact h3
          have hmem1 : e ∈ s1.timers := by
            rcases hbranch with ⟨_, htm⟩ | ⟨_, htm, _⟩
            · rw [htm]
              exact List.mem_cons_of_mem _ herest
            · rw [htm]
              exact herest
          have hnd1 := fired_nodup hr hnd
          obtain ⟨ihdue, ihnot⟩ := ih s1 max s2 tr2 e hnd1 hmem1 hrecF hrec2
          have hchan1 : getChan s1.chans e.eid = getChan s.chans e.eid :=
            hframe e.eid hnet
          have hcne : ¬ ev.eid = e.eid := by
            rw [heid_ev]
            exact fun hc => hnet hc.symm
          have hevskip : eventsOf e.eid (ev :: tr2) = eventsOf e.eid tr2 := by
            rw [eventsOf_cons, if_neg hcne]
          constructor
          · intro hle
            obtain ⟨he1, he2, he3⟩ := ihdue hle
            refine ⟨?_, he2, ?_⟩
            · rw [hevskip]
              exact he1
            · intro hfn
              exact he3 hfn
          · intro hlt
            obtain ⟨he1, he2, he3⟩ := ihnot hlt
            refine ⟨he1, ?_, he3.trans hchan1⟩
            rw [hevskip]
            exact he2
    · simp only [runTimers, hr] at h
      exact Option.noConfusion h

/-- Tracking one registered ticker through the fire loop: its events form
the arithmetic progression `next, next+interval, next+2·interval, …`, and
it survives with `next` advanced by `interval` once per event (tick drift
is measured from the scheduled fire time). -/
theorem runTimers_ticker :
    ∀ (fuel : Nat) (s : UMock) (max : Int) (s' : UMock) (tr : List FireEvent)
      (e : Entry),
    (entryIds s.timers).Nodup → e ∈ s.timers → e.recurring = true →
    runTimers fuel s max = some (s', tr) →
    ∃ c : Nat,
      eventsOf e.eid tr =
        List.map (fun j : Nat => e.next + e.interval * (j : Int)) (List.range c) ∧
      ∃ e2 ∈ s'.timers, e2.eid = e.eid ∧ e2.recurring = true ∧
        e2.interval = e.interval ∧ e2.next = e.next + e.interval * (c : Int) := by
  intro fuel
  induction fuel with
  | zero => intro s max s' tr e _ _ _ h; simp [runTimers] at h
  | succ fuel ih =>
    intro s max s' tr e hnd hmem hrecT h
    rcases hr : runNextTimer s max with s1 | ⟨s1, ev⟩ | _
    · simp only [runTimers, hr, Option.some.injEq, Prod.mk.injEq] at h
      obtain ⟨h1, h2⟩ := h
      subst h1
      subst h2
      obtain ⟨htm, _, _, _, _, _, _, _⟩ := runNextTimer_done hr
      refine ⟨0, by simp [eventsOf], e, ?_, rfl, hrecT, rfl, by simp⟩
      rw [htm]
      exact mem_sortTimers.mpr hmem
    · simp only [runTimers, hr] at h
      rcases hrec2 : runTimers fuel s1 max with _ | ⟨s2, tr2⟩
      · rw [hrec2] at h; simp at h
      · rw [hrec2] at h
        simp only [Option.map_some', Option.some.injEq, Prod.mk.injEq] at h
        obtain ⟨h1, h2⟩ := h
        subst h1
        subst h2
        obtain ⟨t, rest, hs, _, heid_ev, htime_ev, htmem, _, _, _, _, _,
          _, hbranch⟩ := runNextTimer_fired hr
        have hnd1 := fired_nodup hr hnd
        by_cases heq : t.eid = e.eid
        · have hte : e = t := nodup_eq_of_eid_eq hnd hmem htmem heq.symm
          subst hte
          rcases hbranch with ⟨_, htm⟩ | ⟨hrec1, _, _⟩
          · set e1 : Entry := { e with next := e.next + e.interval } with he1
            have hmem1 : e1 ∈ s1.timers := by
              rw [htm]
              exact List.mem_cons_self _ _
            obtain ⟨c1, hev1, e3, hmem3, heid3, hrec3, hint3, hnext3⟩ :=
              ih s1 max s2 tr2 e1 hnd1 hmem1 hrecT hrec2
            refine ⟨c1 + 1, ?_, e3, hmem3, heid3, hrec3, ?_, ?_⟩
            · rw [eventsOf_cons, if_pos heid_ev, htime_ev]
              rw [hev1]
              rw [List.range_succ_eq_map, List.map_cons, List.map_map]
              congr 1
              · simp
              · refine List.map_congr_left ?_
                intro j _
                simp only [Function.comp_apply, he1]
                push_cast
                ring
            · exact hint3
            · rw [hnext3]
              simp only [he1]
              push_cast
              ring
          · rw [hrecT] at hrec1
            cases hrec1
        · have hnet : e.eid ≠ t.eid := fun hc => heq hc.symm
          have hem : e ∈ t :: rest := hs ▸ mem_sortTimers.mpr hmem
          have herest : e ∈ rest := by
            rcases List.mem_cons.mp hem with h3 | h3
            · exact absurd (congrArg (fun x => x.eid) h3) hnet
            · exact h3
          have hmem1 : e ∈ s1.timers := by
            rcases hbranch with ⟨_, htm⟩ | ⟨_, htm, _⟩
            · rw [htm]
              exact List.mem_cons_of_mem _ herest
            · rw [htm]
              exact herest
          obtain ⟨c1, hev1, e3, hmem3, heid3, hrec3, hint3, hnext3⟩ :=
            ih s1 max s2 tr2 e hnd1 hmem1 hrecT hrec2
          have hcne : ¬ ev.eid = e.eid := by
            rw [heid_ev]
            exact fun hc => hnet hc.symm
          refine ⟨c1, ?_, e3, hmem3, heid3, hrec3, hint3, hnext3⟩
          rw [eventsOf_cons, if_neg hcne]
          exact hev1
    · simp only [runTimers, hr] at h
      exact Option.noConfusion h

/-! ## Lemmas about `Add` and `Set` -/

theorem applyEff_frame {s : UMock} {e : Eff} {s1 : UMock}
    (h : applyEff s e = some s1) :
    s1.now = s.now ∧ s1.timers = s.timers ∧ s1.chans = s.chans ∧
      s1.nextId = s.nextId := by
  cases e with
  | waitStart =>
    rcases hw : optWait s.onStart with _ | c
    · simp [applyEff, hw] at h
    · simp only [applyEff, hw, Option.map_some', Option.some.injEq] at h
      subst h
      exact ⟨rfl, rfl, rfl, rfl⟩
  | waitConfirm =>
    rcases hw : optWait s.onConfirm with _ | c
    · simp [applyEff, hw] at h
    · simp only [applyEff, hw, Option.map_some', Option.some.injEq] at h
      subst h
      exact ⟨rfl, rfl, rfl, rfl⟩
  | waitAll =>
    rcases hw : optWait s.onStart with _ | c1
    · simp [applyEff, hw] at h
    · rcases hw2 : optWait s.onConfirm with _ | c2
      · simp [applyEff, hw, hw2] at h
      · simp only [applyEff, hw, hw2, Option.some_bind, Option.map_some',
          Option.some.injEq] at h
        subst h
        exact ⟨rfl, rfl, rfl, rfl⟩
  | expectStarts n =>
    simp only [applyEff, Option.some.injEq] at h
    subst h
    exact ⟨rfl, rfl, rfl, rfl⟩
  | expectConfirms n =>
    simp only [applyEff, Option.some.injEq] at h
    subst h
    exact ⟨rfl, rfl, rfl, rfl⟩
  | setFail b =>
    simp only [applyEff, Option.some.injEq] at h
    subst h
    exact ⟨rfl, rfl, rfl, rfl⟩
  | sched =>
    simp only [applyEff, Option.some.injEq] at h
    subst h
    exact ⟨rfl, rfl, rfl, rfl⟩

theorem applyEffs_frame :
    ∀ {l : List Eff} {s s1 : UMock}, applyEffs s l = some s1 →
    s1.now = s.now ∧ s1.timers = s.timers ∧ s1.chans = s.chans ∧
      s1.nextId = s.nextId := by
  intro l
  induction l with
  | nil =>
    intro s s1 h
    simp only [applyEffs, Option.some.injEq] at h
    subst h
    exact ⟨rfl, rfl, rfl, rfl⟩
  | cons e l ih =>
    intro s s1 h
    simp only [applyEffs] at h
    rcases he : applyEff s e with _ | s2
    · rw [he] at h; simp at h
    · rw [he] at h
      simp only [Option.some_bind] at h
      obtain ⟨h1, h2, h3, h4⟩ := applyEff_frame he
      obtain ⟨g1, g2, g3, g4⟩ := ih h
      exact ⟨g1.trans h1, g2.trans h2, g3.trans h3, g4.trans h4⟩

/-- Unfolding a successful `Add`: the two option passes (which do not touch
time, registry, channels, or identities), the fire loop at target
`now + d`, and the final exact assignment of `now`. -/
theorem Add_inv {s : UMock} {d : Int} {opts : List ClockOpt} {fuel : Nat}
    {r : AdvResult} (h : UMock.Add s d opts fuel = some r) :
    ∃ s2 s3, s2.timers = s.timers ∧ s2.chans = s.chans ∧
      s2.nextId = s.nextId ∧ s2.now = s.now ∧
      runTimers fuel s2 (s.now + d) = some (s3, r.fires) ∧
      r.state = { s3 with now := s.now + d } ∧ r.effsAfter = [] := by
  simp only [UMock.Add] at h
  rcases h1 : applyEffs s (List.flatten (List.map (fun o => o.prior) opts))
    with _ | sp
  · rw [h1] at h; simp at h
  · rw [h1] at h
    simp only [Option.some_bind] at h
    rcases h2 : applyEffs sp (List.flatten (List.map (fun o => o.upcoming) opts))
      with _ | s2
    · rw [h2] at h; simp at h
    · rw [h2] at h
      simp only [Option.some_bind] at h
      obtain ⟨f1, f2, f3, f4⟩ := applyEffs_frame h1
      obtain ⟨g1, g2, g3, g4⟩ := applyEffs_frame h2
      rcases h3 : runTimers fuel s2 (s2.now + d) with _ | p
      · rw [h3] at h; simp at h
      · rw [h3] at h
        simp only [Option.map_some', Option.some.injEq] at h
        subst h
        have hnow : s2.now = s.now := g1.trans f1
        refine ⟨s2, p.1, g2.trans f2, g3.trans f3, g4.trans f4, hnow,
          ?_, ?_, rfl⟩
        · rw [← hnow]
          exact h3
        · rw [hnow]

/-- Unfolding a successful `Set`; identical to `Add_inv` with absolute
target `t`. -/
theorem Set_inv {s : UMock} {t : Int} {opts : List ClockOpt} {fuel : Nat}
    {r : AdvResult} (h : UMock.Set s t opts fuel = some r) :
    ∃ s2 s3, s2.timers = s.timers ∧ s2.chans = s.chans ∧
      s2.nextId = s.nextId ∧ s2.now = s.now ∧
      runTimers fuel s2 t = some (s3, r.fires) ∧
      r.state = { s3 with now := t } ∧ r.effsAfter = [] := by
  simp only [UMock.Set] at h
  rcases h1 : applyEffs s (List.flatten (List.map (fun o => o.prior) opts))
    with _ | sp
  · rw [h1] at h; simp at h
  · rw [h1] at h
    simp only [Option.some_bind] at h
    rcases h2 : applyEffs sp (List.flatten (List.map (fun o => o.upcoming) opts))
      with _ | s2
    · rw [h2] at h; simp at h
    · rw [h2] at h
      simp only [Option.some_bind] at h
      obtain ⟨f1, f2, f3, f4⟩ := applyEffs_frame h1
      obtain ⟨g1, g2, g3, g4⟩ := applyEffs_frame h2
      rcases h3 : runTimers fuel s2 t with _ | p
      · rw [h3] at h; simp at h
      · rw [h3] at h
        simp only [Option.map_some', Option.some.injEq] at h
        subst h
        exact ⟨s2, p.1, g2.trans f2, g3.trans f3, g4.trans f4, g1.trans f1,
          h3, rfl, rfl⟩

/-- Every successful `Add` call ends with `now` equal to exactly the
requested target `now + d`, whatever fired in between. -/
theorem Add_now {s : UMock} {d : Int} {opts : List ClockOpt} {fuel : Nat}
    {r : AdvResult} (h : UMock.Add s d opts fuel = some r) :
    r.state.now = s.now + d := by
  obtain ⟨_, _, _, _, _, _, _, hst, _⟩ := Add_inv h
  rw [hst]

/-- Every successful `Set` call ends with `now` equal to exactly the
requested target `t`. -/
theorem Set_now {s : UMock} {t : Int} {opts : List ClockOpt} {fuel : Nat}
    {r : AdvResult} (h : UMock.Set s t opts fuel = some r) :
    r.state.now = t := by
  obtain ⟨_, _, _, _, _, _, _, hst, _⟩ := Set_inv h
  rw [hst]

theorem eventsOf_append (k : Nat) (a b : List FireEvent) :
    eventsOf k (a ++ b) = eventsOf k a ++ eventsOf k b := by
  simp [eventsOf, List.filter_append]

theorem mem_eventsOf {k : Nat} {tr : List FireEvent} {τ : Int} :
    τ ∈ eventsOf k tr ↔ ∃ ev ∈ tr, ev.eid = k ∧ ev.time = τ := by
  simp only [eventsOf, List.mem_map, List.mem_filter, decide_eq_true_eq]
  constructor
  · rintro ⟨ev, ⟨hm, he⟩, ht⟩
    exact ⟨ev, hm, he, ht⟩
  · rintro ⟨ev, hm, he, ht⟩
    exact ⟨ev, ⟨hm, he⟩, ht⟩

/-- One `Add` call, as seen by one registered one-shot timer. -/
theorem Add_oneshot {s : UMock} {d : Int} {opts : List ClockOpt} {fuel : Nat}
    {r : AdvResult} {e : Entry}
    (hnd : (entryIds s.timers).Nodup) (hmem : e ∈ s.timers)
    (hrec : e.recurring = false) (h : UMock.Add s d opts fuel = some r) :
    (entryIds r.state.timers).Nodup ∧ r.state.now = s.now + d ∧
      r.state.nextId = s.nextId ∧
      (e.next ≤ s.now + d →
        eventsOf e.eid r.fires = [e.next] ∧
        e.eid ∉ entryIds r.state.timers ∧
        (e.hasFn = false → getChan r.state.chans e.eid = some (some e.next))) ∧
      (s.now + d < e.next →
        e ∈ r.state.timers ∧ eventsOf e.eid r.fires = [] ∧
        getChan r.state.chans e.eid = getChan s.chans e.eid) := by
  obtain ⟨s2, s3, ht2, hc2, hn2, hw2, hrun, hst, _⟩ := Add_inv h
  have hnd2 : (entryIds s2.timers).Nodup := by rw [ht2]; exact hnd
  have hmem2 : e ∈ s2.timers := by rw [ht2]; exact hmem
  obtain ⟨_, _, _, _, hndk, hid3, _, _, _⟩ := runTimers_facts fuel s2 _ s3 _ hrun
  obtain ⟨hdue, hnot⟩ := runTimers_oneshot fuel s2 _ s3 _ e hnd2 hmem2 hrec hrun
  have hstt : r.state.timers = s3.timers := by rw [hst]
  have hstc : r.state.chans = s3.chans := by rw [hst]
  have hstn : r.state.nextId = s3.nextId := by rw [hst]
  refine ⟨by rw [hstt]; exact hndk hnd2, Add_now h, by rw [hstn, hid3, hn2], ?_, ?_⟩
  · intro hle
    obtain ⟨h1, h2, h3⟩ := hdue hle
    exact ⟨h1, by rw [hstt]; exact h2,
      fun hfn => by rw [hstc]; exact h3 hfn⟩
  · intro hlt
    obtain ⟨h1, h2, h3⟩ := hnot hlt
    exact ⟨by rw [hstt]; exact h1, h2, by rw [hstc, h3, hc2]⟩

/-- One `Add` call, as seen by one registered ticker. -/
theorem Add_ticker {s : UMock} {d : Int} {opts : List ClockOpt} {fuel : Nat}
    {r : AdvResult} {e : Entry}
    (hnd : (entryIds s.timers).Nodup) (hmem : e ∈ s.timers)
    (hrec : e.recurring = true) (h : UMock.Add s d opts fuel = some r) :
    (entryIds r.state.timers).Nodup ∧ r.state.now = s.now + d ∧
      ∃ c : Nat,
        eventsOf e.eid r.fires =
          List.map (fun j : Nat => e.next + e.interval * (j : Int))
            (List.range c) ∧
        (∀ τ ∈ eventsOf e.eid r.fires, τ ≤ s.now + d) ∧
        ∃ e2 ∈ r.state.timers, e2.eid = e.eid ∧ e2.recurring = true ∧
          e2.interval = e.interval ∧
          e2.next = e.next + e.interval * (c : Int) ∧
          s.now + d < e2.next := by
  obtain ⟨s2, s3, ht2, _, _, hw2, hrun, hst, _⟩ := Add_inv h
  have hnd2 : (entryIds s2.timers).Nodup := by rw [ht2]; exact hnd
  have hmem2 : e ∈ s2.timers := by rw [ht2]; exact hmem
  obtain ⟨hgt, htle, _, _, hndk, _, _, _, _⟩ :=
    runTimers_facts fuel s2 _ s3 _ hrun
  obtain ⟨c, hev, e2, hmem3, heid2, hrec2, hint2, hnext2⟩ :=
    runTimers_ticker fuel s2 _ s3 _ e hnd2 hmem2 hrec hrun
  have hstt : r.state.timers = s3.timers := by rw [hst]
  have hstc : r.state.chans = s3.chans := by rw [hst]
  refine ⟨by rw [hstt]; exact hndk hnd2, Add_now h, c, hev, ?_,
    e2, by rw [hstt]; exact hmem3, heid2, hrec2, hint2, hnext2, ?_⟩
  · intro τ hτ
    obtain ⟨ev, hevm, _, htv⟩ := mem_eventsOf.mp hτ
    rw [← htv]
    exact htle ev hevm
  · exact hgt e2 hmem3

/-- A key outside the registry is untouched by a whole fold of `Add`
calls: no events, no channel change, never re-registered. -/
theorem foldAdds_frame :
    ∀ (ds : List Int) (s : UMock) (fuel : Nat) (s' : UMock)
      (tr : List FireEvent) (k : Nat),
    foldAdds fuel s ds = some (s', tr) → k ∉ entryIds s.timers →
    getChan s'.chans k = getChan s.chans k ∧ k ∉ entryIds s'.timers ∧
      eventsOf k tr = [] := by
  intro ds
  induction ds with
  | nil =>
    intro s fuel s' tr k h hk
    simp only [foldAdds, Option.some.injEq, Prod.mk.injEq] at h
    obtain ⟨h1, h2⟩ := h
    subst h1
    subst h2
    exact ⟨rfl, hk, rfl⟩
  | cons d ds ih =>
    intro s fuel s' tr k h hk
    simp only [foldAdds] at h
    rcases ha : UMock.Add s d [] fuel with _ | r
    · rw [ha] at h; simp at h
    · rw [ha] at h
      simp only [Option.some_bind] at h
      rcases hf : foldAdds fuel r.state ds with _ | p
      · rw [hf] at h; simp at h
      · rw [hf] at h
        simp only [Option.map_some', Option.some.injEq, Prod.mk.injEq] at h
        obtain ⟨h1, h2⟩ := h
        subst h1
        subst h2
        obtain ⟨s2, s3, ht2, hc2, _, _, hrun, hst, _⟩ := Add_inv ha
        have hk2 : k ∉ entryIds s2.timers := by rw [ht2]; exact hk
        obtain ⟨_, _, hevsrc, hsub, _, _, _, _, _⟩ :=
          runTimers_facts fuel s2 _ s3 _ hrun
        have hchan1 : getChan r.state.chans k = getChan s.chans k := by
          rw [hst]
          rw [runTimers_chan_frame fuel s2 _ s3 _ k hrun hk2, hc2]
        have hk3 : k ∉ entryIds r.state.timers := by
          rw [hst]
          exact fun hc => hk2 (hsub k hc)
        have hev1 : eventsOf k r.fires = [] := by
          refine eventsOf_eq_nil ?_
          intro ev hev hc
          exact hk2 (hc ▸ hevsrc ev hev)
        obtain ⟨g1, g2, g3⟩ := ih r.state fuel p.1 p.2 k hf hk3
        exact ⟨g1.trans hchan1, g2, by simp [eventsOf_append, hev1, g3]⟩

/-- A whole fold of `Add` calls moves `now` by exactly the sum of the
requested durations. -/
theorem foldAdds_now :
    ∀ (ds : List Int) (s : UMock) (fuel : Nat) (s' : UMock)
      (tr : List FireEvent),
    foldAdds fuel s ds = some (s', tr) → s'.now = s.now + ds.sum := by
  intro ds
  induction ds with
  | nil =>
    intro s fuel s' tr h
    simp only [foldAdds, Option.some.injEq, Prod.mk.injEq] at h
    obtain ⟨h1, _⟩ := h
    subst h1
    simp
  | cons d ds ih =>
    intro s fuel s' tr h
    simp only [foldAdds] at h
    rcases ha : UMock.Add s d [] fuel with _ | r
    · rw [ha] at h; simp at h
    · rw [ha] at h
      simp only [Option.some_bind] at h
      rcases hf : foldAdds fuel r.state ds with _ | p
      · rw [hf] at h; simp at h
      · rw [hf] at h
        simp only [Option.map_some', Option.some.injEq, Prod.mk.injEq] at h
        obtain ⟨h1, _⟩ := h
        subst h1
        rw [ih r.state fuel p.1 p.2 hf, Add_now ha, List.sum_cons]
        ring

theorem foldAdds_nil_inv {fuel : Nat} {s s' : UMock} {tr : List FireEvent}
    (h : foldAdds fuel s [] = some (s', tr)) : s' = s ∧ tr = [] := by
  simp only [foldAdds, Option.some.injEq, Prod.mk.injEq] at h
  exact ⟨h.1.symm, h.2.symm⟩

theorem foldAdds_cons_inv {fuel : Nat} {s : UMock} {d : Int} {ds : List Int}
    {s' : UMock} {tr : List FireEvent}
    (h : foldAdds fuel s (d :: ds) = some (s', tr)) :
    ∃ r p2, UMock.Add s d [] fuel = some r ∧
      foldAdds fuel r.state ds = some (s', p2) ∧ tr = r.fires ++ p2 := by
  simp only [foldAdds] at h
  rcases ha : UMock.Add s d [] fuel with _ | r
  · rw [ha] at h; simp at h
  · rw [ha] at h
    simp only [Option.some_bind] at h
    rcases hf : foldAdds fuel r.state ds with _ | p
    · rw [hf] at h; simp at h
    · rw [hf] at h
      simp only [Option.map_some', Option.some.injEq, Prod.mk.injEq] at h
      obtain ⟨h1, h2⟩ := h
      refine ⟨r, p.2, rfl, ?_, h2.symm⟩
      rw [← h1]
      exact hf

theorem int_sum_nonneg : ∀ {l : List Int}, (∀ x ∈ l, 0 ≤ x) → 0 ≤ l.sum := by
  intro l
  induction l with
  | nil => intro _; simp
  | cons x l ih =>
    intro h
    rw [List.sum_cons]
    have h1 := h x (List.mem_cons_self x l)
    have h2 := ih (fun y hy => h y (List.mem_cons_of_mem x hy))
    linarith

/-- A registered channel one-shot timer, across a whole fold of
non-negative `Add` calls: it fires (once, with its scheduled time landing
in its channel) precisely when the fold's total advance reaches its
schedule; otherwise it survives untouched. -/
theorem foldAdds_oneshot_aux :
    ∀ (ds : List Int) (s : UMock) (fuel : Nat) (s' : UMock)
      (tr : List FireEvent) (e : Entry),
    (entryIds s.timers).Nodup → e ∈ s.timers → e.recurring = false →
    e.hasFn = false → getChan s.chans e.eid = some none →
    (∀ x ∈ ds, 0 ≤ x) →
    foldAdds fuel s ds = some (s', tr) →
    (ds ≠ [] ∧ e.next ≤ s.now + ds.sum →
        eventsOf e.eid tr = [e.next] ∧
        getChan s'.chans e.eid = some (some e.next)) ∧
      ((ds = [] ∨ s.now + ds.sum < e.next) →
        eventsOf e.eid tr = [] ∧ getChan s'.chans e.eid = some none ∧
        e ∈ s'.timers) := by
  intro ds
  induction ds with
  | nil =>
    intro s fuel s' tr e _ hmem _ _ hchan _ h
    obtain ⟨h1, h2⟩ := foldAdds_nil_inv h
    subst h1
    subst h2
    constructor
    · rintro ⟨hne, _⟩
      exact absurd rfl hne
    · intro _
      exact ⟨rfl, hchan, hmem⟩
  | cons d ds ih =>
    intro s fuel s' tr e hnd hmem hrec hfn hchan hpos h
    obtain ⟨r, p2, ha, hf, htr⟩ := foldAdds_cons_inv h
    subst htr
    have hd0 : 0 ≤ d := hpos d (List.mem_cons_self d ds)
    have hds' : ∀ x ∈ ds, 0 ≤ x := fun x hx => hpos x (List.mem_cons_of_mem d hx)
    have hsum' : 0 ≤ ds.sum := int_sum_nonneg hds'
    obtain ⟨hnd1, hnow1, _, hdue, hnot⟩ := Add_oneshot hnd hmem hrec ha
    by_cases hcase : e.next ≤ s.now + d
    · obtain ⟨hev1, hnid1, hch1⟩ := hdue hcase
      have hch1' := hch1 hfn
      obtain ⟨gch, _, gev⟩ := foldAdds_frame ds r.state fuel s' p2 e.eid hf hnid1
      constructor
      · intro _
        refine ⟨?_, ?_⟩
        · rw [eventsOf_append, hev1, gev]
          simp
        · rw [gch, hch1']
      · intro hyp
        rcases hyp with h3 | h3
        · cases h3
        · rw [List.sum_cons] at h3
          linarith
    · push_neg at hcase
      obtain ⟨hmem1, hev1, hch1⟩ := hnot hcase
      have hchan1 : getChan r.state.chans e.eid = some none := by
        rw [hch1, hchan]
      obtain ⟨ih1, ih2⟩ :=
        ih r.state fuel s' p2 e hnd1 hmem1 hrec hfn hchan1 hds' hf
      constructor
      · rintro ⟨_, hle⟩
        rw [List.sum_cons] at hle
        rcases ds with _ | ⟨d2, ds2⟩
        · simp only [List.sum_nil] at hle
          have : e.next ≤ s.now + d := by linarith
          exact absurd this (not_le.mpr hcase)
        · have hgoal := ih1 ⟨by simp, by rw [hnow1]; linarith [hle]⟩
          obtain ⟨g1, g2⟩ := hgoal
          refine ⟨?_, g2⟩
          rw [eventsOf_append, hev1, g1]
          simp
      · intro hyp
        have h3 : s.now + (d :: ds).sum < e.next := by
          rcases hyp with h3 | h3
          · cases h3
          · exact h3
        rw [List.sum_cons] at h3
        have hgoal := ih2 (Or.inr (by rw [hnow1]; linarith))
        obtain ⟨g1, g2, g3⟩ := hgoal
        refine ⟨?_, g2, g3⟩
        rw [eventsOf_append, hev1, g1]
        simp

/-- A registered ticker, across a whole fold of non-negative `Add` calls:
its events form the arithmetic progression starting at its schedule with
step `interval`, all events happen within the total advance, and it ends
re-armed strictly beyond the final time (when any `Add` happened). -/
theorem foldAdds_ticker_aux :
    ∀ (ds : List Int) (s : UMock) (fuel : Nat) (s' : UMock)
      (tr : List FireEvent) (e : Entry),
    (entryIds s.timers).Nodup → e ∈ s.timers → e.recurring = true →
    (∀ x ∈ ds, 0 ≤ x) →
    foldAdds fuel s ds = some (s', tr) →
    ∃ c : Nat,
      eventsOf e.eid tr =
        List.map (fun j : Nat => e.next + e.interval * (j : Int))
          (List.range c) ∧
      (∀ τ ∈ eventsOf e.eid tr, τ ≤ s.now + ds.sum) ∧
      ∃ e2 ∈ s'.timers, e2.eid = e.eid ∧ e2.recurring = true ∧
        e2.interval = e.interval ∧
        e2.next = e.next + e.interval * (c : Int) ∧
        (ds = [] → c = 0) ∧ (ds ≠ [] → s.now + ds.sum < e2.next) := by
  intro ds
  induction ds with
  | nil =>
    intro s fuel s' tr e _ hmem hrec _ h
    obtain ⟨h1, h2⟩ := foldAdds_nil_inv h
    subst h1
    subst h2
    exact ⟨0, by simp [eventsOf], by simp [eventsOf], e, hmem, rfl, hrec,
      rfl, by simp, fun _ => rfl, fun hc => absurd rfl hc⟩
  | cons d ds ih =>
    intro s fuel s' tr e hnd hmem hrec hpos h
    obtain ⟨r, p2, ha, hf, htr⟩ := foldAdds_cons_inv h
    subst htr
    have hd0 : 0 ≤ d := hpos d (List.mem_cons_self d ds)
    have hds' : ∀ x ∈ ds, 0 ≤ x := fun x hx => hpos x (List.mem_cons_of_mem d hx)
    have hsum' : 0 ≤ ds.sum := int_sum_nonneg hds'
    obtain ⟨hnd1, hnow1, c1, hev1, hbnd1, e2, hmem2, heid2, hrec2, hint2,
      hnext2, hgt2⟩ := Add_ticker hnd hmem hrec ha
    obtain ⟨c2, hev2, hbnd2, e3, hmem3, heid3, hrec3, hint3, hnext3, hc20,
      hgt3⟩ := ih r.state fuel s' p2 e2 hnd1 hmem2 hrec2 hds' hf
    refine ⟨c1 + c2, ?_, ?_, e3, hmem3, heid3.trans heid2, hrec3,
      hint3.trans hint2, ?_, fun hc => absurd hc (by simp), ?_⟩
    · rw [eventsOf_append, hev1, heid2] at *
      rw [hev2, hint2, hnext2]
      rw [List.range_add, List.map_append, List.map_map]
      congr 1
      refine List.map_congr_left ?_
      intro j _
      simp only [Function.comp_apply]
      push_cast
      ring
    · intro τ hτ
      rw [eventsOf_append, List.mem_append] at hτ
      rw [List.sum_cons]
      rcases hτ with hτ | hτ
      · have := hbnd1 τ hτ
        linarith
      · have := hbnd2 τ (by rw [heid2]; exact hτ)
        rw [hnow1] at this
        linarith
    · rw [hnext3, hint2, hnext2]
      push_cast
      ring
    · intro _
      rw [List.sum_cons]
      rcases hde : ds with _ | ⟨d2, ds2⟩
      · obtain ⟨hs', _⟩ := foldAdds_nil_inv (hde ▸ hf)
        have hc2z : c2 = 0 := hc20 hde
        rw [hc2z] at hnext3
        simp only [Nat.cast_zero, mul_zero, add_zero] at hnext3
        rw [hnext3, hnext2]
        simp only [hde, List.sum_nil]
        linarith
      · have := hgt3 (by rw [hde]; simp)
        rw [hnow1, hde] at this
        rw [← hde]
        rw [hde]
        linarith

theorem getChan_append_fresh {cs : Chans} {k : Nat} {v : Option Int}
    (h : ∀ p ∈ cs, p.1 ≠ k) : getChan (cs ++ [(k, v)]) k = some v := by
  induction cs with
  | nil => simp [getChan]
  | cons p rest ih =>
    have hp : ¬ p.1 = k := h p (List.mem_cons_self p rest)
    simp only [List.cons_append, getChan, hp, if_false]
    exact ih (fun q hq => h q (List.mem_cons_of_mem p hq))

theorem nodup_entryIds_append_fresh {l : List Entry} {e : Entry}
    (hnd : (entryIds l).Nodup) (hfresh : e.eid ∉ entryIds l) :
    (entryIds (l ++ [e])).Nodup := by
  simp only [entryIds, List.map_append, List.map_cons, List.map_nil]
  rw [List.nodup_append]
  refine ⟨hnd, List.nodup_singleton _, ?_⟩
  intro a ha hb
  rw [List.mem_singleton] at hb
  subst hb
  exact hfresh ha

/-- A fold of `Add` calls (with arbitrary per-call options) moves `now` by
exactly the sum of the requested durations. -/
theorem foldAddCalls_now :
    ∀ (calls : List (Int × List ClockOpt)) (s : UMock) (fuel : Nat)
      (s' : UMock),
    foldAddCalls fuel s calls = some s' →
    s'.now = s.now + (List.map Prod.fst calls).sum := by
  intro calls
  induction calls with
  | nil =>
    intro s fuel s' h
    simp only [foldAddCalls, Option.some.injEq] at h
    subst h
    simp
  | cons c cs ih =>
    intro s fuel s' h
    simp only [foldAddCalls] at h
    rcases ha : UMock.Add s c.1 c.2 fuel with _ | r
    · rw [ha] at h; simp at h
    · rw [ha] at h
      simp only [Option.some_bind] at h
      rw [ih r.state fuel s' h, Add_now ha]
      simp only [List.map_cons, List.sum_cons]
      ring

/-- The first entry fired during the loop has the minimal `next` among
all pending entries. -/
theorem runTimers_head_min :
    ∀ (fuel : Nat) (s : UMock) (max : Int) (s' : UMock) (ev : FireEvent)
      (tr : List FireEvent),
    runTimers fuel s max = some (s', ev :: tr) →
    ∀ e ∈ s.timers, ev.time ≤ e.next := by
  intro fuel s max s' ev tr h
  cases fuel with
  | zero => simp [runTimers] at h
  | succ fuel =>
    rcases hr : runNextTimer s max with s1 | ⟨s1, ev0⟩ | _
    · simp only [runTimers, hr, Option.some.injEq, Prod.mk.injEq] at h
      exact absurd h.2 (by simp)
    · simp only [runTimers, hr] at h
      rcases hrec2 : runTimers fuel s1 max with _ | p
      · rw [hrec2] at h; simp at h
      · rw [hrec2] at h
        simp only [Option.map_some', Option.some.injEq, Prod.mk.injEq] at h
        have hev0 : ev0 = ev := (List.cons.injEq _ _ _ _).mp h.2 |>.1
        obtain ⟨t, rest, hs, _, _, htime, _, _, _, _, _, _, _, _⟩ :=
          runNextTimer_fired hr
        intro e he
        rw [← hev0, htime]
        exact sortTimers_head_min hs e he
    · simp only [runTimers, hr] at h
      exact Option.noConfusion h

/-- One public operation that does not request the past never moves the
clock backwards, and preserves time-coherence. -/
theorem stepOp_monotone {fuel : Nat} {s : UMock} {op : ClockOp} {s1 : UMock}
    (hwf : WFtime s) (hg : goodOp s op = true) (h : stepOp fuel s op = some s1) :
    s.now ≤ s1.now ∧ WFtime s1 := by
  obtain ⟨hlb, hiv⟩ := hwf
  cases op with
  | addOp d =>
    have hd : 0 ≤ d := by simpa [goodOp] using hg
    simp only [stepOp] at h
    rcases ha : UMock.Add s d [] fuel with _ | r
    · rw [ha] at h; simp at h
    · rw [ha] at h
      simp only [Option.map_some', Option.some.injEq] at h
      subst h
      obtain ⟨s2, s3, ht2, _, _, hw2, hrun, hst, _⟩ := Add_inv ha
      have hlb2 : ∀ e ∈ s2.timers, s2.now ≤ e.next := by
        rw [ht2, hw2]
        exact hlb
      have hiv2 : ∀ e ∈ s2.timers, e.recurring = true → 0 ≤ e.interval := by
        rw [ht2]
        exact hiv
      obtain ⟨_, _, hiv3⟩ := runTimers_time_inv fuel s2 _ s3 _ hlb2 hiv2 hrun
      obtain ⟨hgt, _, _, _, _, _, _, _, _⟩ := runTimers_facts fuel s2 _ s3 _ hrun
      rw [hst]
      refine ⟨by simp only; linarith, ?_, ?_⟩
      · intro e he
        simp only at he ⊢
        exact le_of_lt (hgt e he)
      · intro e he
        simp only at he ⊢
        exact hiv3 e he
  | setOp t =>
    have hd : s.now ≤ t := by simpa [goodOp] using hg
    simp only [stepOp] at h
    rcases ha : UMock.Set s t [] fuel with _ | r
    · rw [ha] at h; simp at h
    · rw [ha] at h
      simp only [Option.map_some', Option.some.injEq] at h
      subst h
      obtain ⟨s2, s3, ht2, _, _, hw2, hrun, hst, _⟩ := Set_inv ha
      have hlb2 : ∀ e ∈ s2.timers, s2.now ≤ e.next := by
        rw [ht2, hw2]
        exact hlb
      have hiv2 : ∀ e ∈ s2.timers, e.recurring = true → 0 ≤ e.interval := by
        rw [ht2]
        exact hiv
      obtain ⟨_, _, hiv3⟩ := runTimers_time_inv fuel s2 _ s3 _ hlb2 hiv2 hrun
      obtain ⟨hgt, _, _, _, _, _, _, _, _⟩ := runTimers_facts fuel s2 _ s3 _ hrun
      rw [hst]
      refine ⟨by simp only; exact hd, ?_, ?_⟩
      · intro e he
        simp only at he ⊢
        exact le_of_lt (hgt e he)
      · intro e he
        simp only at he ⊢
        exact hiv3 e he
  | timerOp d =>
    have hd : 0 ≤ d := by simpa [goodOp] using hg
    simp only [stepOp, UMock.NewTimer, Option.some.injEq] at h
    subst h
    refine ⟨le_refl _, ?_, ?_⟩
    · intro e he
      simp only at he ⊢
      rcases List.mem_append.mp he with h1 | h1
      · exact hlb e h1
      · rw [List.mem_singleton] at h1
        subst h1
        simp only
        linarith
    · intro e he hr
      simp only at he
      rcases List.mem_append.mp he with h1 | h1
      · exact hiv e h1 hr
      · rw [List.mem_singleton] at h1
        subst h1
        cases hr
  | tickerOp d =>
    have hd : 0 ≤ d := by simpa [goodOp] using hg
    simp only [stepOp, UMock.NewTicker, Option.some.injEq] at h
    subst h
    refine ⟨le_refl _, ?_, ?_⟩
    · intro e he
      simp only at he ⊢
      rcases List.mem_append.mp he with h1 | h1
      · exact hlb e h1
      · rw [List.mem_singleton] at h1
        subst h1
        simp only
        linarith
    · intro e he _
      simp only at he
      rcases List.mem_append.mp he with h1 | h1
      · exact hiv e h1 (by assumption)
      · rw [List.mem_singleton] at h1
        subst h1
        exact hd
  | afterFuncOp d =>
    have hd : 0 ≤ d := by simpa [goodOp] using hg
    simp only [stepOp, UMock.AfterFunc, Option.some.injEq] at h
    subst h
    refine ⟨le_refl _, ?_, ?_⟩
    · intro e he
      simp only at he ⊢
      rcases List.mem_append.mp he with h1 | h1
      · exact hlb e h1
      · rw [List.mem_singleton] at h1
        subst h1
        simp only
        linarith
    · intro e he hr
      simp only at he
      rcases List.mem_append.mp he with h1 | h1
      · exact hiv e h1 hr
      · rw [List.mem_singleton] at h1
        subst h1
        cases hr

/-- Across a whole run of public operations that never request the past,
the clock is monotone and time-coherence is preserved. -/
theorem goodRun_monotone :
    ∀ (ops : List ClockOp) (fuel : Nat) (s s' : UMock),
    WFtime s → goodRun fuel s ops = true → runOps fuel s ops = some s' →
    s.now ≤ s'.now ∧ WFtime s' := by
  intro ops
  induction ops with
  | nil =>
    intro fuel s s' hwf _ h
    simp only [runOps, Option.some.injEq] at h
    subst h
    exact ⟨le_refl _, hwf⟩
  | cons op ops ih =>
    intro fuel s s' hwf hg h
    simp only [runOps] at h
    rcases hst : stepOp fuel s op with _ | s1
    · rw [hst] at h; simp at h
    · rw [hst] at h
      simp only [Option.some_bind] at h
      simp only [goodRun, hst, Bool.and_eq_true] at hg
      obtain ⟨hg1, hg2⟩ := hg
      obtain ⟨hm1, hwf1⟩ := stepOp_monotone hwf hg1 hst
      obtain ⟨hm2, hwf2⟩ := ih fuel s1 s' hwf1 hg2 h
      exact ⟨le_trans hm1 hm2, hwf2⟩

/-! ## Checkpoint lemmas -/

/-- Sequentially, the lenient checkpoint's mailbox always holds the running
net of all deltas folded into it. -/
theorem foldl_updateOutstanding :
    ∀ (l : List Int) (v : Int),
    List.foldl updateOutstanding (some v) l = some (v + l.sum) := by
  intro l
  induction l with
  | nil => intro v; simp
  | cons d t ih =>
    intro v
    simp only [List.foldl_cons, updateOutstanding, List.sum_cons]
    rw [ih (v + d)]
    ring_nf

/-- `Add(n)` then exactly `n` `Done()` calls returns the strict checkpoint
to its initial state without any failure report. -/
theorem failDoneN_exact :
    ∀ (n : Nat) (f : Nat),
    failDoneN n ⟨(n : Int), (n : Int), f⟩ = ⟨0, 0, f⟩ := by
  intro n
  induction n with
  | zero => intro f; simp [failDoneN]
  | succ n ih =>
    intro f
    have hpos : ¬ ((n : Int) + 1 ≤ 0) := by omega
    simp only [failDoneN, failDone, Nat.cast_succ, hpos, if_false]
    have : ((n : Int) + 1 - 1) = (n : Int) := by ring
    rw [this]
    exact ih f

/-! ## Registration facts -/

theorem NewTimer_facts {s0 : UMock} (hwf : WFids s0) (d : Int) :
    (entryIds (UMock.NewTimer s0 d).2.timers).Nodup ∧
      (UMock.NewTimer s0 d).1 ∈ (UMock.NewTimer s0 d).2.timers ∧
      getChan (UMock.NewTimer s0 d).2.chans s0.nextId = some none := by
  obtain ⟨hlt, hnd, hch⟩ := hwf
  have hfresh : s0.nextId ∉ entryIds s0.timers := by
    intro hc
    obtain ⟨e, he, heq⟩ := List.mem_map.mp hc
    exact absurd heq (Nat.ne_of_lt (hlt e he))
  refine ⟨?_, ?_, ?_⟩
  · exact nodup_entryIds_append_fresh hnd hfresh
  · exact List.mem_append_right _ (List.mem_singleton.mpr rfl)
  · exact getChan_append_fresh (fun p hp => Nat.ne_of_lt (hch p hp))

theorem NewTicker_facts {s0 : UMock} (hwf : WFids s0) (d : Int) :
    (entryIds (UMock.NewTicker s0 d).2.timers).Nodup ∧
      (UMock.NewTicker s0 d).1 ∈ (UMock.NewTicker s0 d).2.timers ∧
      getChan (UMock.NewTicker s0 d).2.chans s0.nextId = some none := by
  obtain ⟨hlt, hnd, hch⟩ := hwf
  have hfresh : s0.nextId ∉ entryIds s0.timers := by
    intro hc
    obtain ⟨e, he, heq⟩ := List.mem_map.mp hc
    exact absurd heq (Nat.ne_of_lt (hlt e he))
  refine ⟨?_, ?_, ?_⟩
  · exact nodup_entryIds_append_fresh hnd hfresh
  · exact List.mem_append_right _ (List.mem_singleton.mpr rfl)
  · exact getChan_append_fresh (fun p hp => Nat.ne_of_lt (hch p hp))

/-! ## Claim theorems -/

/-- C1: For every mock clock created at the epoch and every finite
sequence of calls `Add(d1), …, Add(dn)` (with any options), the value
returned by `Now()` after the last call equals `epoch + d1 + … + dn`,
regardless of how many pending timers or tickers fired during those
calls; and each `Add`/`Set` ends by assigning the requested target time
exactly. -/
theorem C1_add_now_sum :
    (∀ (s : UMock) (d : Int) (opts : List ClockOpt) (fuel : Nat)
        (r : AdvResult),
      UMock.Add s d opts fuel = some r → r.state.now = s.now + d) ∧
      (∀ (s : UMock) (t : Int) (opts : List ClockOpt) (fuel : Nat)
        (r : AdvResult),
        UMock.Set s t opts fuel = some r → r.state.now = t) ∧
      ∀ (s0 : UMock), s0.now = 0 →
        ∀ (calls : List (Int × List ClockOpt)) (fuel : Nat) (s' : UMock),
        foldAddCalls fuel s0 calls = some s' →
        s'.now = (List.map Prod.fst calls).sum := by
  refine ⟨fun s d opts fuel r h => Add_now h,
    fun s t opts fuel r h => Set_now h, ?_⟩
  intro s0 h0 calls fuel s' h
  rw [foldAddCalls_now calls s0 fuel s' h, h0, zero_add]

/-- C1 witness: a clock at the epoch, a pending timer, and two `Add`
calls of 3 and 5 land `now` on exactly 8 = 3 + 5. -/
theorem C1_add_now_sum_witness :
    foldAddCalls 10 (UMock.NewTimer mockInit 4).2 [(3, []), (5, [])] =
        some { now := 8, timers := [], chans := [(0, some 4)],
               onStart := some (-1), onConfirm := some 0, tForFail := false,
               nextId := 1 } ∧
      ({ now := 8, timers := [], chans := [(0, some 4)],
         onStart := some (-1), onConfirm := some 0, tForFail := false,
         nextId := 1 } : UMock).now =
        (List.map Prod.fst [((3 : Int), ([] : List ClockOpt)), (5, [])]).sum := by
  refine ⟨by decide, ?_⟩
  exact C1_add_now_sum.2.2 (UMock.NewTimer mockInit 4).2 rfl
    [(3, []), (5, [])] 10 _ (by decide)

/-- C4: the claim says every delivery to a timer's or ticker's channel is
a non-blocking send that drops the value when the single buffered slot is
full, and that the driver never blocks on a channel send.  The code
matches this for tickers (`internalTicker.Tick` uses `select`/`default`,
first conjunct: a ticker fire with a full slot keeps the old value and
reports `dropped`), but `internalTimer.Tick` delivers with a *plain*
blocking send: after a timer has fired into its undrained channel and
been re-armed by `Reset` (modelled from the spec), the next `Add` blocks
forever (second and third conjuncts). -/
theorem C4_timer_send_blocks :
    (fireOne ⟨0, 5, true, 5, false⟩ 5 [(0, some 1)] =
        some (some ⟨0, 10, true, 5, false⟩, [(0, some 1)], Outcome.dropped)) ∧
      (UMock.Add (UMock.NewTimer mockInit 5).2 5 [] 10).isSome = true ∧
      ((UMock.Add (UMock.NewTimer mockInit 5).2 5 [] 10).bind
          (fun r => UMock.Add
            (UMock.ResetTimer r.state (UMock.NewTimer mockInit 5).1 5)
            5 [] 10)) = none := by
  refine ⟨by decide, by decide, by decide⟩

/-- C5: the claim says `WaitForStartsAfter`/`WaitForConfirmsAfter` make
`Add`/`Set` block after the advance until the checkpoint drains.  The
options' `AfterClockAdvanceOption` hooks do perform exactly that wait
(first two conjuncts), but `UnsynchronizedMock.Add` and `Set` never
invoke the post-advance pass: with one outstanding expected start (resp.
confirm) and nobody to drain it, the call returns immediately, executes
no synchronization effect at all, and leaves the checkpoint's count
untouched (last two conjuncts). -/
theorem C5_after_options_inert :
    waitForStartsAfterOpt.afterAdv = [Eff.waitStart] ∧
      waitForConfirmsAfterOpt.afterAdv = [Eff.waitConfirm] ∧
      (UMock.Add (UMock.ExpectStarts mockInit 1) 5 [waitForStartsAfterOpt]
          10).map (fun r => (r.effsBefore, r.effsAfter, r.state.onStart)) =
        some ([], [], some 1) ∧
      (UMock.Set { mockInit with onConfirm := some 1 } 7
          [waitForConfirmsAfterOpt] 10).map
          (fun r => (r.effsBefore, r.effsAfter, r.state.onConfirm)) =
        some ([], [], some 1) := by
  refine ⟨rfl, rfl, by decide, by decide⟩

/-- C8: for a lenient (`OptionalCheckpoint`) checkpoint and any sequence
of `Add(delta)`/`Done` calls (each a `updateOutstanding` with the
corresponding delta, `Done ≡ Add(-1)`) whose deltas sum to a value ≤ 0, a
subsequent `Wait()` returns without blocking and resets the stored count
to 0; with no prior calls (`deltas = []`) it returns immediately. -/
theorem C8_lenient_wait_returns (deltas : List Int)
    (hsum : deltas.sum ≤ 0) :
    optWait (List.foldl updateOutstanding (some 0) deltas) = some (some 0) ∧
      ∀ ch : Option Int, optDone ch = updateOutstanding ch (-1) := by
  refine ⟨?_, fun ch => rfl⟩
  rw [foldl_updateOutstanding, zero_add]
  simp only [optWait, if_pos hsum]

/-- C8 witness: `Add(2)` then two `Done`s (and also no calls at all) lets
`Wait()` return at once with the count reset. -/
theorem C8_lenient_wait_returns_witness :
    (optWait (List.foldl updateOutstanding (some 0) [2, -1, -1]) =
        some (some 0)) ∧
      optWait (List.foldl updateOutstanding (some 0) []) = some (some 0) := by
  exact ⟨(C8_lenient_wait_returns [2, -1, -1] (by decide)).1,
    (C8_lenient_wait_returns [] (by decide)).1⟩

/-- C9: for a strict (`FailOnUnexpectedCheckpoint`) checkpoint, `Done()`
with `expected ≤ 0` delivers exactly one failure report and leaves the
rest of the state unchanged (no panic — it returns early, and the
checkpoint remains usable); and `Add(n)` followed by exactly `n` `Done()`
calls produces zero failure reports, after which `Wait()` returns. -/
theorem C9_strict_done_reports :
    (∀ s : FailCP, s.expected ≤ 0 →
        failDone s = { s with failures := s.failures + 1 }) ∧
      ∀ n : Nat,
        failDoneN n (failAdd failInit (n : Int)) = ⟨0, 0, 0⟩ ∧
          failWait (failDoneN n (failAdd failInit (n : Int))) =
            some ⟨0, 0, 0⟩ := by
  constructor
  · intro s hs
    simp [failDone, hs]
  · intro n
    have h1 : failAdd failInit (n : Int) = ⟨(n : Int), (n : Int), 0⟩ := by
      simp [failAdd, failInit]
    have h2 : failDoneN n (failAdd failInit (n : Int)) = ⟨0, 0, 0⟩ := by
      rw [h1]
      exact failDoneN_exact n 0
    exact ⟨h2, by rw [h2]; rfl⟩

/-- C9 witness: an over-`Done`d checkpoint reports exactly one failure
with its counters untouched, and `Add(2)` + 2×`Done()` + `Wait()` goes
through with zero failures. -/
theorem C9_strict_done_reports_witness :
    failDone ⟨0, 0, 0⟩ = ⟨0, 0, 1⟩ ∧
      failDoneN 2 (failAdd failInit (2 : Int)) = ⟨0, 0, 0⟩ := by
  exact ⟨C9_strict_done_reports.1 ⟨0, 0, 0⟩ (by decide),
    (C9_strict_done_reports.2 2).1⟩

/-- C10: calling the package-level `Done(name)` with a name that is not
registered in the global checkpoint directory is a silent no-op: it does
not panic, reports nothing, and leaves the directory (and so every
registered checkpoint) unchanged. -/
theorem C10_done_unknown_noop (dir : Directory) (name : String)
    (h : dirLookup dir name = none) : doneByName dir name = dir := by
  simp [doneByName, h]

/-- C10 witness: `Done` on an unregistered name leaves a directory with
one live checkpoint exactly as it was. -/
theorem C10_done_unknown_noop_witness :
    doneByName [("start", CP.optional (some 2))] "confirm" =
      [("start", CP.optional (some 2))] :=
  C10_done_unknown_noop [("start", CP.optional (some 2))] "confirm"
    (by decide)

/-- C2 counterexample: ticker 0 is registered first (interval 4, first
fire at 4), ticker 1 second (interval 2).  During a single `Add(4)`,
ticker 1 fires at 2 and is re-armed to 4; at virtual time 4 both pending
entries share `nextFire = 4`, yet ticker 1 — the *later* registration —
fires before ticker 0 (the sort operates on the previously sorted slice,
in which ticker 1 now sits first), refuting the claim that ties fire in
registration order. -/
theorem C2_tie_not_registration_order :
    (UMock.Add (UMock.NewTicker (UMock.NewTicker mockInit 4).2 2).2
        4 [] 20).map
        (fun r => List.map (fun ev => (ev.eid, ev.time)) r.fires) =
      some [(1, 2), (1, 4), (0, 4)] := by
  decide

/-- C2 (amended): during any single `Add` or `Set` call that returns,
pending entries fire in non-decreasing `nextFire` order, and the first
entry fired has minimal `nextFire` among the pending entries; entries
sharing a `nextFire` fire in their current order in the (stably sorted)
internal timer slice, which need not be registration order. -/
theorem C2_fire_order_amended :
    (∀ (s : UMock) (d : Int) (opts : List ClockOpt) (fuel : Nat)
        (r : AdvResult),
      UMock.Add s d opts fuel = some r →
      List.Pairwise (fun a b => a ≤ b) (timesOf r.fires) ∧
        ∀ ev ∈ r.fires.head?, ∀ e ∈ s.timers, ev.time ≤ e.next) ∧
      ∀ (s : UMock) (t : Int) (opts : List ClockOpt) (fuel : Nat)
        (r : AdvResult),
      UMock.Set s t opts fuel = some r →
      List.Pairwise (fun a b => a ≤ b) (timesOf r.fires) ∧
        ∀ ev ∈ r.fires.head?, ∀ e ∈ s.timers, ev.time ≤ e.next := by
  constructor
  · intro s d opts fuel r h
    obtain ⟨s2, s3, ht2, _, _, _, hrun, _, _⟩ := Add_inv h
    refine ⟨(runTimers_times_sorted fuel s2 _ s3 r.fires hrun).1, ?_⟩
    intro ev hev e he
    rcases hf : r.fires with _ | ⟨ev0, trr⟩
    · rw [hf] at hev
      cases hev
    · rw [hf] at hev
      simp only [List.head?_cons, Option.mem_def, Option.some.injEq] at hev
      subst hev
      rw [hf] at hrun
      exact runTimers_head_min fuel s2 _ s3 ev0 trr hrun e (ht2 ▸ he)
  · intro s t opts fuel r h
    obtain ⟨s2, s3, ht2, _, _, _, hrun, _, _⟩ := Set_inv h
    refine ⟨(runTimers_times_sorted fuel s2 _ s3 r.fires hrun).1, ?_⟩
    intro ev hev e he
    rcases hf : r.fires with _ | ⟨ev0, trr⟩
    · rw [hf] at hev
      cases hev
    · rw [hf] at hev
      simp only [List.head?_cons, Option.mem_def, Option.some.injEq] at hev
      subst hev
      rw [hf] at hrun
      exact runTimers_head_min fuel s2 _ s3 ev0 trr hrun e (ht2 ▸ he)

/-- C2 witness: in the two-ticker counterexample run the fire times
2, 4, 4 are indeed non-decreasing. -/
theorem C2_fire_order_amended_witness :
    List.Pairwise (fun a b : Int => a ≤ b) [2, 4, 4] := by
  rcases hr : UMock.Add (UMock.NewTicker (UMock.NewTicker mockInit 4).2 2).2
      4 [] 20 with _ | r
  · exact absurd hr (by decide)
  · have hmap : (UMock.Add (UMock.NewTicker (UMock.NewTicker mockInit 4).2 2).2
        4 [] 20).map (fun r => timesOf r.fires) = some [2, 4, 4] := by decide
    rw [hr] at hmap
    simp only [Option.map_some', Option.some.injEq] at hmap
    have h := (C2_fire_order_amended.1 _ 4 [] 20 r hr).1
    rw [hmap] at h
    exact h

/-- C3 counterexample: a fresh mock reads the epoch (0) from `Now()`, and
after `Set` to instant −5 a later `Now()` returns −5 < 0: `currentTime`
is not non-decreasing across the public operations as claimed — `Set`
(and negative-duration `Add`) rewind the clock. -/
theorem C3_set_rewinds_clock :
    mockInit.now = 0 ∧
      (UMock.Set mockInit (-5) [] 10).map (fun r => r.state.now) =
        some (-5) ∧
      (-5 : Int) < 0 := by
  refine ⟨rfl, by decide, by decide⟩

/-- C3 (amended): `currentTime` is non-decreasing across any run of
public operations in which no operation requests the past: every `Add`
and timer/ticker creation uses a non-negative duration and every `Set`
target is at or after the current time. -/
theorem C3_monotone_amended (fuel : Nat) (s : UMock) (ops : List ClockOp)
    (s' : UMock) (hwf : WFtime s) (hg : goodRun fuel s ops = true)
    (h : runOps fuel s ops = some s') : s.now ≤ s'.now ∧ WFtime s' :=
  goodRun_monotone ops fuel s s' hwf hg h

/-- C3 witness: a run that registers a ticker and a timer, adds 3,
sets to 10, and adds 0 again never rewinds the epoch clock. -/
theorem C3_monotone_amended_witness :
    mockInit.now ≤ 10 := by
  rcases hr : runOps 20 mockInit
      [.tickerOp 2, .addOp 3, .setOp 10, .timerOp 1, .addOp 0] with _ | s'
  · exact absurd hr (by decide)
  · have hmap : (runOps 20 mockInit
        [.tickerOp 2, .addOp 3, .setOp 10, .timerOp 1, .addOp 0]).map
          (fun s => s.now) = some 10 := by decide
    rw [hr] at hmap
    simp only [Option.map_some', Option.some.injEq] at hmap
    have h := (C3_monotone_amended 20 mockInit
      [.tickerOp 2, .addOp 3, .setOp 10, .timerOp 1, .addOp 0] s'
      ⟨by simp [mockInit], by simp [mockInit]⟩ (by decide) hr).1
    rw [hmap] at h
    exact h

/-- C6: a one-shot timer created via `NewTimer(d)` on any well-formed
mock delivers its event exactly once across any sequence of non-negative
`Add` calls — precisely when the cumulative advance since its creation
reaches `d` — and the delivered instant is exactly creation time + `d`,
never any earlier virtual time (both the fired-event trace and the
timer's channel content show it). -/
theorem C6_timer_delivers_once (s0 : UMock) (hwf : WFids s0) (d : Int)
    (hd : 0 < d) (ds : List Int) (hpos : ∀ x ∈ ds, 0 ≤ x) (fuel : Nat)
    (s' : UMock) (tr : List FireEvent)
    (h : foldAdds fuel (UMock.NewTimer s0 d).2 ds = some (s', tr)) :
    eventsOf s0.nextId tr = (if d ≤ ds.sum then [s0.now + d] else []) ∧
      getChan s'.chans s0.nextId =
        some (if d ≤ ds.sum then some (s0.now + d) else none) := by
  obtain ⟨hnd, hmem, hchan⟩ := NewTimer_facts hwf d
  have haux := foldAdds_oneshot_aux ds (UMock.NewTimer s0 d).2 fuel s' tr
    (UMock.NewTimer s0 d).1 hnd hmem rfl rfl hchan hpos h
  by_cases hle : d ≤ ds.sum
  · have hne : ds ≠ [] := by
      intro hnil
      rw [hnil] at hle
      simp only [List.sum_nil] at hle
      linarith
    obtain ⟨g1, g2⟩ := haux.1 ⟨hne, by
      show s0.now + d ≤ s0.now + ds.sum
      linarith⟩
    rw [if_pos hle, if_pos hle]
    exact ⟨g1, g2⟩
  · push_neg at hle
    obtain ⟨g1, g2, _⟩ := haux.2 (Or.inr (by
      show s0.now + ds.sum < s0.now + d
      linarith))
    rw [if_neg (not_le.mpr hle), if_neg (not_le.mpr hle)]
    exact ⟨g1, g2⟩

/-- C6 witness: a 10-second timer on a fresh mock, advanced by 9 then 1,
fires exactly once at instant 10 and its channel holds exactly that
instant. -/
theorem C6_timer_delivers_once_witness :
    eventsOf 0 [⟨0, 10, Outcome.sent⟩] =
        (if (10 : Int) ≤ ([9, 1] : List Int).sum then [(10 : Int)] else []) ∧
      getChan [(0, some 10)] 0 =
        some (if (10 : Int) ≤ ([9, 1] : List Int).sum
          then some (10 : Int) else none) := by
  have h := C6_timer_delivers_once mockInit
    ⟨by simp [mockInit], by simp [mockInit, entryIds], by simp [mockInit]⟩
    10 (by decide) [9, 1] (by decide) 20
    { now := 10, timers := [], chans := [(0, some 10)],
      onStart := some (-1), onConfirm := some 0, tForFail := false,
      nextId := 1 }
    [⟨0, 10, Outcome.sent⟩] (by decide)
  exact h

/-- C7: a ticker with interval `ι > 0` on any well-formed mock, across
any sequence of non-negative `Add` calls whose cumulative advance is
exactly `K·ι`, fires exactly `K` times, at the instants
`creation + ι, creation + 2ι, …, creation + K·ι`; and each ticker fire
re-arms the next fire to exactly the previous *scheduled* fire time plus
the interval (drift measured from the scheduled time, not the advance
target). -/
theorem C7_ticker_fires_k_times (s0 : UMock) (hwf : WFids s0) (ι : Int)
    (hι : 0 < ι) (K : Nat) (ds : List Int) (hpos : ∀ x ∈ ds, 0 ≤ x)
    (hsum : ds.sum = (K : Int) * ι) (fuel : Nat) (s' : UMock)
    (tr : List FireEvent)
    (h : foldAdds fuel (UMock.NewTicker s0 ι).2 ds = some (s', tr)) :
    eventsOf s0.nextId tr =
        List.map (fun j : Nat => s0.now + ι * ((j : Int) + 1))
          (List.range K) ∧
      ∀ (e : Entry) (now : Int) (cs : Chans) (e2 : Entry) (cs2 : Chans)
        (out : Outcome), e.recurring = true →
        fireOne e now cs = some (some e2, cs2, out) →
        e2.next = now + e.interval := by
  have hresched : ∀ (e : Entry) (now : Int) (cs : Chans) (e2 : Entry)
      (cs2 : Chans) (out : Outcome), e.recurring = true →
      fireOne e now cs = some (some e2, cs2, out) →
      e2.next = now + e.interval := by
    intro e now cs e2 cs2 out hrec hf
    obtain ⟨cs3, out3, hval, _⟩ := fireOne_recurring now cs hrec
    rw [hval] at hf
    simp only [Option.some.injEq, Prod.mk.injEq] at hf
    obtain ⟨h1, _⟩ := hf
    rw [← h1]
  obtain ⟨hnd, hmem, _⟩ := NewTicker_facts hwf ι
  obtain ⟨c, hev, hbnd, e2, _, _, _, _, hnext2, hc0, hgt⟩ :=
    foldAdds_ticker_aux ds (UMock.NewTicker s0 ι).2 fuel s' tr
      (UMock.NewTicker s0 ι).1 hnd hmem rfl hpos h
  have hen_next : (UMock.NewTicker s0 ι).1.next = s0.now + ι := rfl
  have hen_int : (UMock.NewTicker s0 ι).1.interval = ι := rfl
  have hen_eid : (UMock.NewTicker s0 ι).1.eid = s0.nextId := rfl
  have hnow1 : (UMock.NewTicker s0 ι).2.now = s0.now := rfl
  rw [hen_eid] at hev hbnd
  rw [hen_next, hen_int] at hev hnext2
  rw [hnow1] at hbnd
  rw [hsum] at hbnd hgt
  have hck : c = K := by
    rcases hde : ds with _ | ⟨d1, ds1⟩
    · have hc : c = 0 := hc0 hde
      have hs0 : ds.sum = 0 := by rw [hde]; rfl
      rw [hs0] at hsum
      have hk0 : (K : Int) = 0 := by
        rcases mul_eq_zero.mp hsum.symm with hk | hi
        · exact hk
        · exact absurd hi (ne_of_gt hι)
      have : K = 0 := by exact_mod_cast hk0
      rw [hc, this]
    · have hne : ds ≠ [] := by rw [hde]; simp
      have hup := hgt hne
      rw [hnext2, hnow1] at hup
      have hKlec : K ≤ c := by
        by_contra hcon
        push_neg at hcon
        have h2 : (c : Int) + 1 ≤ (K : Int) := by exact_mod_cast hcon
        have h3 : ((c : Int) + 1) * ι ≤ (K : Int) * ι :=
          mul_le_mul_of_nonneg_right h2 hι.le
        have h4 : ((c : Int) + 1) * ι = ι * (c : Int) + ι := by ring
        linarith
      have hclek : c ≤ K := by
        rcases hcz : c with _ | c1
        · exact Nat.zero_le K
        · have hmemev : s0.now + ι + ι * (c1 : Int) ∈ eventsOf s0.nextId tr := by
            rw [hev, hcz]
            refine List.mem_map.mpr ⟨c1, List.mem_range.mpr (Nat.lt_succ_self c1), rfl⟩
          have hb := hbnd _ hmemev
          by_contra hcon
          push_neg at hcon
          have h2 : (K : Int) + 1 ≤ (c1 : Int) + 1 := by
            have hkc : K ≤ c1 := Nat.lt_succ_iff.mp hcon
            have := Nat.succ_le_succ hkc
            exact_mod_cast this
          have h3 : ((K : Int) + 1) * ι ≤ ((c1 : Int) + 1) * ι :=
            mul_le_mul_of_nonneg_right h2 hι.le
          nlinarith
      exact le_antisymm hclek hKlec
  rw [hck] at hev
  refine ⟨?_, hresched⟩
  rw [hev]
  refine List.map_congr_left ?_
  intro j _
  ring

/-- C7 witness: a 3-second ticker on a fresh mock, advanced by 4 then 5
(total 9 = 3·3), fires exactly 3 times, at instants 3, 6 and 9. -/
theorem C7_ticker_fires_k_times_witness :
    eventsOf 0 [⟨0, 3, Outcome.sent⟩, ⟨0, 6, Outcome.dropped⟩,
        ⟨0, 9, Outcome.dropped⟩] =
      List.map (fun j : Nat => (0 : Int) + 3 * ((j : Int) + 1))
        (List.range 3) := by
  have h := C7_ticker_fires_k_times mockInit
    ⟨by simp [mockInit], by simp [mockInit, entryIds], by simp [mockInit]⟩
    3 (by decide) 3 [4, 5] (by decide) (by decide) 40
    { now := 9,
      timers := [⟨0, 12, true, 3, false⟩],
      chans := [(0, some 3)], onStart := some (-1), onConfirm := some 0,
      tForFail := false, nextId := 1 }
    [⟨0, 3, Outcome.sent⟩, ⟨0, 6, Outcome.dropped⟩, ⟨0, 9, Outcome.dropped⟩]
    (by decide)
  exact h.1

end KraneyClock
